import Mathlib

/-!
Verification of the prompt-explorer scan core.

This file gives a shallow embedding, in Lean 4, of the extraction and
heuristic-analysis pipeline of the repository:

* `src/lib/secretsScan.ts` — the secret scanner (`scanTextForSecrets`);
* `src/lib/promptKeywordScan.ts` — the lexical heuristic scanner
  (`scanTextForPromptKeywords`), including its multi-line block extractors,
  its single-line keyword matchers and the de-duplication key;
* `src/lib/extract/pythonExtractor.ts` — the structural extractor: the
  filesystem effect of `ensurePythonScript`/`extractPythonPrompts`, the
  process contract of `extractPythonPrompts`, and the Python visitor
  (`PromptVisitor`) that the generated script runs over each parsed file;
* `src/app/api/scan/route.ts` — the aggregator: `listAllFiles`,
  `buildFileTree`, and the per-file scanning loop of `POST` with its caps;
* `src/lib/analyzePrompts.ts` — the narrative synthesizer
  (`analyzePromptContext`).

Strings are modelled as `List Char` internally (`String` at the API
boundary), JavaScript regular expressions by a small backtracking engine
whose result list is ordered by JavaScript's backtracking priority
(greedy quantifiers longest-first, alternation left-first), and the
builtin `JSON.parse` / process spawning by explicit parameters, since they
are runtime collaborators rather than repository code.
-/

/-! ## Character classes

JavaScript's regex `\s` class and `String.prototype.trim` whitespace:
ASCII whitespace, NBSP, the Unicode space separators, LS, PS and BOM. -/

def isJsWS (c : Char) : Bool :=
  c = ' ' || c = '\t' || c = '\n' || c = '\r' ||
  c = Char.ofNat 11 || c = Char.ofNat 12 || c = Char.ofNat 160 ||
  c = Char.ofNat 0x1680 ||
  (Char.ofNat 0x2000 ≤ c && c ≤ Char.ofNat 0x200a) ||
  c = Char.ofNat 0x2028 || c = Char.ofNat 0x2029 || c = Char.ofNat 0x202f ||
  c = Char.ofNat 0x205f || c = Char.ofNat 0x3000 || c = Char.ofNat 0xfeff

/-- JavaScript's regex `\w` class: `[A-Za-z0-9_]`. -/
def isWordChar (c : Char) : Bool :=
  ('a' ≤ c && c ≤ 'z') || ('A' ≤ c && c ≤ 'Z') || ('0' ≤ c && c ≤ '9') || c = '_'

/-- The class `[A-Za-z0-9]`. -/
def isAlnum (c : Char) : Bool :=
  ('a' ≤ c && c ≤ 'z') || ('A' ≤ c && c ≤ 'Z') || ('0' ≤ c && c ≤ '9')

/-- Line terminators excluded by JavaScript's regex `.` (without the `s` flag). -/
def isLineTerm (c : Char) : Bool :=
  c = '\n' || c = '\r' || c = Char.ofNat 0x2028 || c = Char.ofNat 0x2029

/-- ASCII lowercase folding, the canonicalization JavaScript's `i` flag
applies to the ASCII letters appearing in this repository's patterns. -/
def lowerChar (c : Char) : Char :=
  if 'A' ≤ c && c ≤ 'Z' then Char.ofNat (c.toNat + 32) else c

/-- The backtick character (code 96), delimiter of JS template literals. -/
def backtickChar : Char := Char.ofNat 96

/-- The single-quote character (code 39). -/
def squoteChar : Char := Char.ofNat 39

/-- The double-quote character (code 34). -/
def dquoteChar : Char := Char.ofNat 34

/-- Either string-quote character, the class `["']`. -/
def isQuoteChar (c : Char) : Bool :=
  c = squoteChar || c = dquoteChar

/-! ## Splitting into lines

`text.split(/\r?\n/)`: separators are `"\n"` and `"\r\n"`; a lone
carriage return is not a separator and stays inside its line. -/

/-- Prepend a character to the first line of a non-empty line list. -/
def consHead (c : Char) : List (List Char) → List (List Char)
  | [] => [[c]]
  | l :: ls => (c :: l) :: ls

def splitLinesJS : List Char → List (List Char)
  | [] => [[]]
  | [c] => if c = '\n' then [[], []] else [[c]]
  | c :: d :: rest =>
    if c = '\n' then [] :: splitLinesJS (d :: rest)
    else if c = '\r' && d = '\n' then [] :: splitLinesJS rest
    else consHead c (splitLinesJS (d :: rest))

/-! ## Decimal rendering of a natural number

`natToDec n` is the character sequence produced by JavaScript template
interpolation of the (natural) line number `n` — its usual decimal
notation. -/

def digitToChar (d : Nat) : Char := Char.ofNat (48 + d)

def natToDec (n : Nat) : List Char :=
  if n = 0 then [digitToChar 0] else ((Nat.digits 10 n).reverse).map digitToChar

/-! ## Whitespace normalization

`normalizeWhitespace` in `promptKeywordScan.ts` is
`value.replace(/\s+/g, " ").trim()`: every maximal whitespace run becomes
a single space, then leading/trailing whitespace is removed. -/

/-- The `replace(/\s+/g, " ")` pass: each maximal whitespace run collapses
to one space. -/
def collapseWS : List Char → List Char
  | [] => []
  | [c] => if isJsWS c then [' '] else [c]
  | c :: d :: rest =>
    if isJsWS c then
      if isJsWS d then collapseWS (d :: rest)
      else ' ' :: collapseWS (d :: rest)
    else c :: collapseWS (d :: rest)

/-- The `.trim()` pass: drop whitespace from both ends. -/
def trimWS (l : List Char) : List Char :=
  ((l.dropWhile isJsWS).reverse.dropWhile isJsWS).reverse

/-- `normalizeWhitespace` from `promptKeywordScan.ts`. -/
def normalizeWhitespace (l : List Char) : List Char :=
  trimWS (collapseWS l)

/-- The maximal non-whitespace runs of a string, in order. -/
def wordsWS : List Char → List (List Char)
  | [] => []
  | [c] => if isJsWS c then [] else [[c]]
  | c :: d :: rest =>
    if isJsWS c then wordsWS (d :: rest)
    else if isJsWS d then [c] :: wordsWS (d :: rest)
    else consHead c (wordsWS (d :: rest))

/-- Join words with single spaces (the normal form produced by
`replace(/\s+/g, " ").trim()`). -/
def joinSp : List (List Char) → List Char
  | [] => []
  | [w] => w
  | w :: v :: rest => w ++ ' ' :: joinSp (v :: rest)

/-! ## The three-line snippet context of a line-heuristic hit

The source computes
`normalizeWhitespace([contextPrev, rawLine, contextNext].filter(Boolean).join(" \n "))`. -/

/-- `filter(Boolean)` over strings: drop the empty ones. -/
def filterTruthy (parts : List (List Char)) : List (List Char) :=
  parts.filter (fun l => !l.isEmpty)

/-- `.join(" \n ")`. -/
def joinNlSep : List (List Char) → List Char
  | [] => []
  | [w] => w
  | w :: v :: rest => w ++ ' ' :: '\n' :: ' ' :: joinNlSep (v :: rest)

/-! ## A small backtracking regex engine

`reMatches r s` lists the suffixes of `s` left over after `r` consumes a
prefix, in JavaScript's backtracking priority order: greedy quantifiers
longest-first, alternation left-first, sequence lexicographic. The first
element is therefore the consumption chosen by a JavaScript regex match
starting at this position. Quantifiers only range over single-character
classes, exactly as in the repository's patterns. -/

inductive RE : Type where
  | eps : RE
  | cls (p : Char → Bool) : RE
  | seq (a b : RE) : RE
  | alt (a b : RE) : RE
  | star (p : Char → Bool) : RE

/-- Greedy Kleene star over a character class. -/
def starMatches (p : Char → Bool) : List Char → List (List Char)
  | [] => [[]]
  | c :: rest => if p c then starMatches p rest ++ [c :: rest] else [c :: rest]

def reMatches : RE → List Char → List (List Char)
  | .eps, s => [s]
  | .cls _, [] => []
  | .cls p, c :: rest => if p c then [rest] else []
  | .seq a b, s => (reMatches a s).flatMap (reMatches b)
  | .alt a b, s => reMatches a s ++ reMatches b s
  | .star p, s => starMatches p s

/-- Literal character (case-sensitive). -/
def lit (c : Char) : RE := .cls (fun d => d = c)

/-- Literal character, case-insensitive (`i` flag, ASCII folding). -/
def litCI (c : Char) : RE := .cls (fun d => lowerChar d = c)

/-- Literal word (case-sensitive). -/
def lits : List Char → RE
  | [] => .eps
  | c :: rest => .seq (lit c) (lits rest)

/-- Literal word, case-insensitive. -/
def litsCI : List Char → RE
  | [] => .eps
  | c :: rest => .seq (litCI c) (litsCI rest)

/-- `p+`: one or more, greedy. -/
def plusCls (p : Char → Bool) : RE := .seq (.cls p) (.star p)

/-- `p{n,}`: at least `n`, greedy. -/
def repGE : Nat → (Char → Bool) → RE
  | 0, p => .star p
  | n + 1, p => .seq (.cls p) (repGE n p)

/-- `r?`, greedy: prefer matching `r` over skipping it. -/
def opt (r : RE) : RE := .alt r .eps

/-- `r` can consume all of `m`. -/
def reFull (r : RE) (m : List Char) : Prop := [] ∈ reMatches r m

instance (r : RE) (m : List Char) : Decidable (reFull r m) :=
  inferInstanceAs (Decidable ([] ∈ reMatches r m))

/-- One step of `regex.exec` with the `g` flag, fuel-structured for
totality (adequate fuel is supplied by `execAll`): leftmost match first,
resuming right after each match; a zero-width match advances by one, as
JavaScript's `lastIndex` handling does. Returns `(index, matched
characters)` pairs in order. -/
def execAllF (r : RE) : Nat → List Char → Nat → List (Nat × List Char)
  | 0, _, _ => []
  | _ + 1, [], idx => if (reMatches r []).isEmpty then [] else [(idx, [])]
  | fuel + 1, c :: rest, idx =>
    match (reMatches r (c :: rest)).head? with
    | none => execAllF r fuel rest (idx + 1)
    | some restM =>
      if (c :: rest).length - restM.length = 0 then
        (idx, []) :: execAllF r fuel rest (idx + 1)
      else
        (idx, (c :: rest).take ((c :: rest).length - restM.length)) ::
          execAllF r fuel ((c :: rest).drop ((c :: rest).length - restM.length))
            (idx + ((c :: rest).length - restM.length))

/-- `while ((m = regex.exec(line)))` collecting every match. -/
def execAll (r : RE) (s : List Char) : List (Nat × List Char) :=
  execAllF r (s.length + 1) s 0

/-! ## The secret scanner (`secretsScan.ts`)

Patterns:
`/sk-[A-Za-z0-9]{20,}/g`, `/Bearer\s+[A-Za-z0-9\-_\.]+/g`, and
`/https?:\/\/[\w.-]+\.[\w.-]+\/.+\/(?:token|key|secret)[^\s"']*/gi`. -/

/-- The class `[A-Za-z0-9\-_\.]` of `bearer_token`. -/
def isBearerTail (c : Char) : Bool :=
  isAlnum c || c = '-' || c = '_' || c = '.'

/-- The class `[\w.-]` of `url_private`. -/
def isUrlName (c : Char) : Bool :=
  isWordChar c || c = '.' || c = '-'

/-- The class `[^\s"']` of `url_private`. -/
def isNotWsQuote (c : Char) : Bool :=
  !(isJsWS c || c = dquoteChar || c = squoteChar)

/-- `sk-[A-Za-z0-9]{20,}`. -/
def reOpenai : RE :=
  .seq (lits ['s', 'k', '-']) (repGE 20 isAlnum)

/-- `Bearer\s+[A-Za-z0-9\-_\.]+`. -/
def reBearer : RE :=
  .seq (lits ['B', 'e', 'a', 'r', 'e', 'r'])
    (.seq (plusCls isJsWS) (plusCls isBearerTail))

/-- `https?:\/\/[\w.-]+\.[\w.-]+\/.+\/(?:token|key|secret)[^\s"']*`, `i` flag. -/
def reUrlPrivate : RE :=
  .seq (litsCI ['h', 't', 't', 'p'])
    (.seq (opt (litCI 's'))
      (.seq (lits [':', '/', '/'])
        (.seq (plusCls isUrlName)
          (.seq (lit '.')
            (.seq (plusCls isUrlName)
              (.seq (lit '/')
                (.seq (plusCls (fun c => !isLineTerm c))
                  (.seq (lit '/')
                    (.seq (.alt (litsCI ['t', 'o', 'k', 'e', 'n'])
                        (.alt (litsCI ['k', 'e', 'y'])
                          (litsCI ['s', 'e', 'c', 'r', 'e', 't'])))
                      (.star isNotWsQuote))))))))))

/-- The fixed pattern table of `secretsScan.ts`, in declaration order. -/
def secretPatterns : List (String × RE) :=
  [("openai_key", reOpenai), ("bearer_token", reBearer), ("url_private", reUrlPrivate)]

/-- `SecretFinding` of `secretsScan.ts`; the `match` field is called
`matchStr` because `match` is reserved in Lean. -/
structure SecretFinding where
  matchStr : String
  filePath : String
  line : Nat
deriving DecidableEq

/-- The nested loop of `scanTextForSecrets`: for each line (1-based index
`i + 1`), for each pattern in declaration order, every `exec` match in
order. -/
def scanLinesForSecrets (filePath : String) : List (List Char) → Nat → List SecretFinding
  | [], _ => []
  | line :: rest, i =>
    secretPatterns.flatMap (fun pat =>
      (execAll pat.2 line).map (fun m => ⟨String.mk m.2, filePath, i + 1⟩))
      ++ scanLinesForSecrets filePath rest (i + 1)

/-- `scanTextForSecrets` of `secretsScan.ts`. -/
def scanTextForSecrets (text filePath : String) : List SecretFinding :=
  scanLinesForSecrets filePath (splitLinesJS text.data) 0

/-! ## The lexical heuristic scanner (`promptKeywordScan.ts`)

Position-wise helpers for the `.test` regexes of the line heuristics and
for the multi-line block extractors. All regexes here quantify only over
whitespace runs, fixed literals and single lazy gaps, so each matcher is
implemented directly, following JavaScript's backtracking order (a lazy
gap scans forward for the earliest position where the deterministic tail
matches). -/

/-- Case-sensitive literal occurrence at position `i`. -/
def matchesAt (pat s : List Char) (i : Nat) : Bool :=
  (s.drop i).take pat.length = pat

/-- Case-insensitive (ASCII-folded) literal occurrence at position `i`;
`pat` is given lowercase. -/
def matchesAtCI (pat s : List Char) (i : Nat) : Bool :=
  ((s.drop i).take pat.length).map lowerChar = pat

/-- `\b` just before position `i` (the following character is a word
character). -/
def boundaryBefore (s : List Char) (i : Nat) : Bool :=
  match i with
  | 0 => true
  | j + 1 =>
    match s.get? j with
    | some c => !isWordChar c
    | none => true

/-- `\b` at position `j` when the preceding character is a word character:
the character at `j`, if any, is not a word character. -/
def boundaryAt (s : List Char) (j : Nat) : Bool :=
  match s.get? j with
  | some c => !isWordChar c
  | none => true

/-- Does some position of `s` (including the end position) satisfy `f`? -/
def existsPos (s : List Char) (f : Nat → Bool) : Bool :=
  (List.range (s.length + 1)).any f

/-- Length of the whitespace run starting at position `i` (`\s*`, greedy;
deterministic here because every continuation starts with a
non-whitespace character). -/
def wsRunFrom (s : List Char) (i : Nat) : Nat :=
  ((s.drop i).takeWhile isJsWS).length

/-- Position after the whitespace run at `i`. -/
def skipWS (s : List Char) (i : Nat) : Nat :=
  i + wsRunFrom s i

/-- `\brole\b`-style word containment, case-insensitive. -/
def containsWordCI (w s : List Char) : Bool :=
  existsPos s (fun i =>
    boundaryBefore s i && matchesAtCI w s i && boundaryAt s (i + w.length))

/-- Plain case-insensitive substring containment (no boundaries). -/
def containsCI (w s : List Char) : Bool :=
  existsPos s (fun i => matchesAtCI w s i)

/-- `role_system`: `/\brole\b/i.test(line) && /\bsystem\b/i.test(line)`. -/
def testRoleSystem (line : List Char) : Bool :=
  containsWordCI ['r', 'o', 'l', 'e'] line &&
    containsWordCI ['s', 'y', 's', 't', 'e', 'm'] line

/-- `system_prompt_identifier`: `/\bsystem[_-]?prompt\b/i.test(line)`. -/
def testSystemPromptIdent (line : List Char) : Bool :=
  existsPos line (fun i =>
    boundaryBefore line i && matchesAtCI ['s', 'y', 's', 't', 'e', 'm'] line i &&
      ((matchesAtCI ['p', 'r', 'o', 'm', 'p', 't'] line (i + 6) &&
          boundaryAt line (i + 12)) ||
        ((line.get? (i + 6) = some '_' || line.get? (i + 6) = some '-') &&
          matchesAtCI ['p', 'r', 'o', 'm', 'p', 't'] line (i + 7) &&
          boundaryAt line (i + 13))))

/-- `system_message_identifier`:
`/\bsystem\s*message\b|\bsystemMessage\b/i.test(line)` (the second
alternative is the zero-whitespace case of the first under case folding,
but both are kept as in the source pattern). -/
def testSystemMessageIdent (line : List Char) : Bool :=
  existsPos line (fun i =>
    (boundaryBefore line i && matchesAtCI ['s', 'y', 's', 't', 'e', 'm'] line i &&
      matchesAtCI ['m', 'e', 's', 's', 'a', 'g', 'e'] line (skipWS line (i + 6)) &&
      boundaryAt line (skipWS line (i + 6) + 7)) ||
    (boundaryBefore line i &&
      matchesAtCI ['s', 'y', 's', 't', 'e', 'm', 'm', 'e', 's', 's', 'a', 'g', 'e'] line i &&
      boundaryAt line (i + 13)))

/-- `/\bmessages?\b/i.test(line)`. -/
def testMessagesWord (line : List Char) : Bool :=
  existsPos line (fun i =>
    boundaryBefore line i && matchesAtCI ['m', 'e', 's', 's', 'a', 'g', 'e'] line i &&
      (boundaryAt line (i + 7) ||
        ((line.get? (i + 7) = some 's' || line.get? (i + 7) = some 'S') &&
          boundaryAt line (i + 8))))

/-- `messages_role_system_inline`: `messages?`, `role` and `system` all on
the line. -/
def testMessagesRoleSystem (line : List Char) : Bool :=
  testMessagesWord line && containsWordCI ['r', 'o', 'l', 'e'] line &&
    containsWordCI ['s', 'y', 's', 't', 'e', 'm'] line

/-- `system_directive_you_are`: `/\byou are\b/i.test(line)` together with
`/\b(system|assistant)\b/i.test(line)`. -/
def testYouAre (line : List Char) : Bool :=
  (existsPos line (fun i =>
    boundaryBefore line i && matchesAtCI ['y', 'o', 'u', ' ', 'a', 'r', 'e'] line i &&
      boundaryAt line (i + 7))) &&
  (containsWordCI ['s', 'y', 's', 't', 'e', 'm'] line ||
    containsWordCI ['a', 's', 's', 'i', 's', 't', 'a', 'n', 't'] line)

/-- `generic_prompt_with_system`: `\bprompt\b` and `\bsystem\b`. -/
def testPromptSystem (line : List Char) : Bool :=
  containsWordCI ['p', 'r', 'o', 'm', 'p', 't'] line &&
    containsWordCI ['s', 'y', 's', 't', 'e', 'm'] line

/-- `common_identifier_variants`:
`/(initialSystemPrompt|baseSystemPrompt|systemInstructions|systemSpec)/i`. -/
def testCommonVariants (line : List Char) : Bool :=
  containsCI "initialsystemprompt".data line ||
    containsCI "basesystemprompt".data line ||
    containsCI "systeminstructions".data line ||
    containsCI "systemspec".data line

/-- The `keywordMatchers` table of `promptKeywordScan.ts`, in declaration
order. -/
def keywordMatchers : List (String × (List Char → Bool)) :=
  [("role_system", testRoleSystem),
   ("system_prompt_identifier", testSystemPromptIdent),
   ("system_message_identifier", testSystemMessageIdent),
   ("messages_role_system_inline", testMessagesRoleSystem),
   ("system_directive_you_are", testYouAre),
   ("generic_prompt_with_system", testPromptSystem),
   ("common_identifier_variants", testCommonVariants)]

/-! ### Block extractors

The six `blockPatterns` of `promptKeywordScan.ts`. Each matcher answers:
does the pattern match starting exactly at position `i`, and if so with
which total length and which captured group? Lazy gaps (`[\s\S]*?`)
scan forward for the earliest position where the deterministic remainder
matches, which is exactly JavaScript's lazy backtracking order; when the
remainder can fail only for lack of any later closing delimiter, a longer
gap cannot succeed either, so the first viable position decides. -/

/-- First position `k ≥ i` (up to the end of `s`) satisfying `f`. -/
def firstFrom (s : List Char) (i : Nat) (f : Nat → Bool) : Option Nat :=
  (List.range (s.length + 1)).find? (fun k => decide (i ≤ k) && f k)

/-- `([\s\S]*?)` up to the first backtick at or after `i`: returns the
position of that backtick and the captured content. -/
def lazyToBacktick (s : List Char) (i : Nat) : Option (Nat × List Char) :=
  match firstFrom s i (fun k => s.get? k = some backtickChar) with
  | some k => some (k, (s.drop i).take (k - i))
  | none => none

/-- `\bsystem` (case-sensitive) at `i`, then `\s*`, then the given
separator, then `\s*`: returns the position after the second run. -/
def systemSepAt (sepOk : Char → Bool) (s : List Char) (i : Nat) : Option Nat :=
  if boundaryBefore s i && matchesAt ['s', 'y', 's', 't', 'e', 'm'] s i then
    let j := skipWS s (i + 6)
    match s.get? j with
    | some c => if sepOk c then some (skipWS s (j + 1)) else none
    | none => none
  else none

/-- `js_ts_system_template_literal`: `/\bsystem\s*:\s*` + backtick +
`([\s\S]*?)` + backtick, `g` flag (case-sensitive). -/
def blockM1 (s : List Char) (i : Nat) : Option (Nat × List Char) :=
  match systemSepAt (fun c => c = ':') s i with
  | none => none
  | some j2 =>
    if s.get? j2 = some backtickChar then
      match lazyToBacktick s (j2 + 1) with
      | some (k, content) => some (k + 1 - i, content)
      | none => none
    else none

/-- `content\s*<sep>\s*` + backtick + `([\s\S]*?)` + backtick at `p`
(case-insensitive on `content`): returns the end position (exclusive) and
the captured content. -/
def contentBacktickAt (sep : Char) (s : List Char) (p : Nat) : Option (Nat × List Char) :=
  if matchesAtCI ['c', 'o', 'n', 't', 'e', 'n', 't'] s p then
    let q := skipWS s (p + 7)
    if s.get? q = some sep then
      let q2 := skipWS s (q + 1)
      if s.get? q2 = some backtickChar then
        match lazyToBacktick s (q2 + 1) with
        | some (k, content) => some (k + 1, content)
        | none => none
      else none
    else none
  else none

/-- `role\s*<sep>\s*["']system["']` at `p` (case-insensitive): returns the
end position (exclusive). -/
def roleSystemAt (sep : Char) (s : List Char) (p : Nat) : Option Nat :=
  if matchesAtCI ['r', 'o', 'l', 'e'] s p then
    let q := skipWS s (p + 4)
    if s.get? q = some sep then
      let q2 := skipWS s (q + 1)
      match s.get? q2 with
      | some c1 =>
        if isQuoteChar c1 && matchesAtCI ['s', 'y', 's', 't', 'e', 'm'] s (q2 + 1) then
          match s.get? (q2 + 7) with
          | some c2 => if isQuoteChar c2 then some (q2 + 8) else none
          | none => none
        else none
      | none => none
    else none
  else none

/-- `js_ts_role_system_then_content_template`:
`/role\s*:\s*["']system["'][\s\S]*?content\s*:\s*` + backtick +
`([\s\S]*?)` + backtick, `gi`. -/
def blockM2 (s : List Char) (i : Nat) : Option (Nat × List Char) :=
  match roleSystemAt ':' s i with
  | none => none
  | some e =>
    match firstFrom s e (fun p => (contentBacktickAt ':' s p).isSome) with
    | none => none
    | some p =>
      match contentBacktickAt ':' s p with
      | some r => some (r.1 - i, r.2)
      | none => none

/-- `js_ts_content_template_then_role_system`:
`/content\s*:\s*` + backtick + `([\s\S]*?)` + backtick +
`[\s\S]*?role\s*:\s*["']system["']`, `gi`. -/
def blockM3 (s : List Char) (i : Nat) : Option (Nat × List Char) :=
  match contentBacktickAt ':' s i with
  | none => none
  | some r =>
    match firstFrom s r.1 (fun p => (roleSystemAt ':' s p).isSome) with
    | none => none
    | some p =>
      match roleSystemAt ':' s p with
      | some e => some (e - i, r.2)
      | none => none

/-- Three consecutive quote characters at `q` (the capture `(["']{3})`). -/
def tripleAt (s : List Char) (q : Nat) : Option (Char × Char × Char) :=
  match s.get? q, s.get? (q + 1), s.get? (q + 2) with
  | some a, some b, some c =>
    if isQuoteChar a && isQuoteChar b && isQuoteChar c then some (a, b, c) else none
  | _, _, _ => none

/-- `([\s\S]*?)\1` after a captured quote triple: the first later
occurrence of exactly that triple closes the span. -/
def lazyToTriple (s : List Char) (i : Nat) (t : Char × Char × Char) :
    Option (Nat × List Char) :=
  match firstFrom s i (fun k =>
      s.get? k = some t.1 && s.get? (k + 1) = some t.2.1 && s.get? (k + 2) = some t.2.2) with
  | some k => some (k, (s.drop i).take (k - i))
  | none => none

/-- `py_system_triple_quoted`: `/\bsystem\s*[:=]\s*(["']{3})([\s\S]*?)\1/g`
(case-sensitive). -/
def blockM4 (s : List Char) (i : Nat) : Option (Nat × List Char) :=
  match systemSepAt (fun c => c = ':' || c = '=') s i with
  | none => none
  | some j2 =>
    match tripleAt s j2 with
    | none => none
    | some t =>
      match lazyToTriple s (j2 + 3) t with
      | some (k, content) => some (k + 3 - i, content)
      | none => none

/-- `content\s*=\s*(["']{3})([\s\S]*?)\1` at `p` (case-insensitive on
`content`): end position (exclusive) and captured content. -/
def contentTripleAt (s : List Char) (p : Nat) : Option (Nat × List Char) :=
  if matchesAtCI ['c', 'o', 'n', 't', 'e', 'n', 't'] s p then
    let q := skipWS s (p + 7)
    if s.get? q = some '=' then
      let q2 := skipWS s (q + 1)
      match tripleAt s q2 with
      | none => none
      | some t =>
        match lazyToTriple s (q2 + 3) t with
        | some (k, content) => some (k + 3, content)
        | none => none
    else none
  else none

/-- `py_role_system_triple_content`:
`/role\s*=\s*["']system["'][\s\S]*?content\s*=\s*(["']{3})([\s\S]*?)\1/gi`. -/
def blockM5 (s : List Char) (i : Nat) : Option (Nat × List Char) :=
  match roleSystemAt '=' s i with
  | none => none
  | some e =>
    match firstFrom s e (fun p => (contentTripleAt s p).isSome) with
    | none => none
    | some p =>
      match contentTripleAt s p with
      | some r => some (r.1 - i, r.2)
      | none => none

/-- `py_content_triple_then_role_system`:
`/content\s*=\s*(["']{3})([\s\S]*?)\1[\s\S]*?role\s*=\s*["']system["']/gi`. -/
def blockM6 (s : List Char) (i : Nat) : Option (Nat × List Char) :=
  match contentTripleAt s i with
  | none => none
  | some r =>
    match firstFrom s r.1 (fun p => (roleSystemAt '=' s p).isSome) with
    | none => none
    | some p =>
      match roleSystemAt '=' s p with
      | some e => some (e - i, r.2)
      | none => none

/-- The `blockPatterns` table of `promptKeywordScan.ts`, in declaration
order. -/
def blockPatterns : List (String × (List Char → Nat → Option (Nat × List Char))) :=
  [("js_ts_system_template_literal", blockM1),
   ("js_ts_role_system_then_content_template", blockM2),
   ("js_ts_content_template_then_role_system", blockM3),
   ("py_system_triple_quoted", blockM4),
   ("py_role_system_triple_content", blockM5),
   ("py_content_triple_then_role_system", blockM6)]

/-- The `g`-flag exec loop for a block matcher over the whole text,
fuel-structured for totality (fuel supplied by `blockExec`). -/
def blockExecF (N : Nat) (mf : Nat → Option (Nat × List Char)) :
    Nat → Nat → List (Nat × List Char)
  | 0, _ => []
  | fuel + 1, i =>
    if i > N then []
    else
      match mf i with
      | some r => (i, r.2) :: blockExecF N mf fuel (if r.1 = 0 then i + 1 else i + r.1)
      | none => blockExecF N mf fuel (i + 1)

def blockExec (s : List Char) (mf : List Char → Nat → Option (Nat × List Char)) :
    List (Nat × List Char) :=
  blockExecF s.length (mf s) (s.length + 2) 0

/-- `lineNumberAtIndex` of `promptKeywordScan.ts`: one plus the number of
newline characters strictly before `idx`. -/
def lineNumberAtIndex (text : List Char) (idx : Nat) : Nat :=
  1 + (text.take idx).countP (fun c => c = '\n')

/-- `PromptKeywordHit` of `promptKeywordScan.ts`. -/
structure PromptKeywordHit where
  filePath : String
  line : Nat
  matchLabel : String
  snippet : String
deriving DecidableEq

/-- The de-duplication key `` `${label}:${line}:${snippet.slice(0, 50)}` ``. -/
def hitKey (label : String) (line : Nat) (snippet : List Char) : List Char :=
  label.data ++ ':' :: (natToDec line ++ ':' :: snippet.take 50)

/-- The key of an emitted hit (its snippet is stored untruncated; the key
truncates to the first 50 characters). -/
def hitKeyOf (h : PromptKeywordHit) : List Char :=
  hitKey h.matchLabel h.line h.snippet.data

/-- The block-pattern `while (exec)` body: emit each match unless its key
was already seen, threading the `seen` set. -/
def pushBlockMatches (filePath : String) (text : List Char) (label : String) :
    List (Nat × List Char) → List (List Char) → List (List Char) × List PromptKeywordHit
  | [], seen => (seen, [])
  | m :: rest, seen =>
    let line := lineNumberAtIndex text m.1
    let key := hitKey label line m.2
    if key ∈ seen then pushBlockMatches filePath text label rest seen
    else
      let r := pushBlockMatches filePath text label rest (key :: seen)
      (r.1, ⟨filePath, line, label, String.mk m.2⟩ :: r.2)

/-- The block phase: the six patterns in declaration order. -/
def blockPhase (filePath : String) (text : List Char) :
    List (String × (List Char → Nat → Option (Nat × List Char))) →
      List (List Char) → List (List Char) × List PromptKeywordHit
  | [], seen => (seen, [])
  | pat :: pats, seen =>
    let r1 := pushBlockMatches filePath text pat.1 (blockExec text pat.2) seen
    let r2 := blockPhase filePath text pats r1.1
    (r2.1, r1.2 ++ r2.2)

/-- The snippet of a line-heuristic hit as the source computes it:
previous, matching and next line, empty lines dropped by
`filter(Boolean)`, joined with `" \n "` and whitespace-normalized. -/
def lineSnippet (prevL curL nextL : List Char) : List Char :=
  normalizeWhitespace (joinNlSep (filterTruthy [prevL, curL, nextL]))

/-- The next-context line: the head of the remaining lines, or `""`. -/
def headOrNil : List (List Char) → List Char
  | [] => []
  | n :: _ => n

/-- The inner matcher loop for one line: first predicate wins; a hit whose
key was already seen is skipped and the loop continues with the next
predicate (`continue`); an emitted hit ends the loop (`break`). -/
def tryMatchers (filePath : String) (i : Nat) (prevL curL nextL : List Char) :
    List (String × (List Char → Bool)) → List (List Char) →
      List (List Char) × List PromptKeywordHit
  | [], seen => (seen, [])
  | m :: ms, seen =>
    if m.2 curL then
      if hitKey m.1 (i + 1) (lineSnippet prevL curL nextL) ∈ seen then
        tryMatchers filePath i prevL curL nextL ms seen
      else
        (hitKey m.1 (i + 1) (lineSnippet prevL curL nextL) :: seen,
          [⟨filePath, i + 1, m.1, String.mk (lineSnippet prevL curL nextL)⟩])
    else tryMatchers filePath i prevL curL nextL ms seen

/-- The line phase: every line with its 1-based number and its two
context lines (`""` at either end). -/
def linePhase (filePath : String) :
    List Char → List (List Char) → Nat → List (List Char) →
      List (List Char) × List PromptKeywordHit
  | _, [], _, seen => (seen, [])
  | prevL, curL :: rest, i, seen =>
    (
      (linePhase filePath curL rest (i + 1)
        (tryMatchers filePath i prevL curL (headOrNil rest) keywordMatchers seen).1).1,
      (tryMatchers filePath i prevL curL (headOrNil rest) keywordMatchers seen).2 ++
      (linePhase filePath curL rest (i + 1)
        (tryMatchers filePath i prevL curL (headOrNil rest) keywordMatchers seen).1).2)

/-- `scanTextForPromptKeywords` of `promptKeywordScan.ts`: block extractors
first, then the line heuristics, sharing one `seen` set. -/
def scanTextForPromptKeywords (text filePath : String) : List PromptKeywordHit :=
  (blockPhase filePath text.data blockPatterns []).2 ++
    (linePhase filePath [] (splitLinesJS text.data) 0
      (blockPhase filePath text.data blockPatterns []).1).2

/-! ### Spec-side description of the scanner (for claim C5)

Following the spec's words: all block-extractor hits are computed first,
then per line the first matching predicate's hit; a hit is suppressed
exactly when an identical `(label, line, first-50-characters-of-snippet)`
key was already emitted. -/

/-- All block-extractor candidate hits, patterns in declaration order. -/
def blockCandidates (filePath : String) (text : List Char) : List PromptKeywordHit :=
  blockPatterns.flatMap (fun pat =>
    (blockExec text pat.2).map (fun m =>
      ⟨filePath, lineNumberAtIndex text m.1, pat.1, String.mk m.2⟩))

/-- Per-line candidate hits: the first predicate in declaration order that
matches a line wins. -/
def lineCandidates (filePath : String) :
    List Char → List (List Char) → Nat → List PromptKeywordHit
  | _, [], _ => []
  | prevL, curL :: rest, i =>
    (match keywordMatchers.find? (fun m => m.2 curL) with
     | some m =>
       [⟨filePath, i + 1, m.1, String.mk (lineSnippet prevL curL (headOrNil rest))⟩]
     | none => []) ++ lineCandidates filePath curL rest (i + 1)

/-- Keep only the first occurrence of each de-duplication key. -/
def dedupByKey : List PromptKeywordHit → List (List Char) → List PromptKeywordHit
  | [], _ => []
  | h :: rest, seen =>
    if hitKeyOf h ∈ seen then dedupByKey rest seen
    else h :: dedupByKey rest (hitKeyOf h :: seen)

/-- The `seen` set accumulated by `dedupByKey`. -/
def dedupSeen : List PromptKeywordHit → List (List Char) → List (List Char)
  | [], seen => seen
  | h :: rest, seen =>
    if hitKeyOf h ∈ seen then dedupSeen rest seen
    else dedupSeen rest (hitKeyOf h :: seen)

/-- Modelled on the spec's de-duplication sentence: block-extractor hits
first, then line-heuristic hits, filtered to the first occurrence of each
`(label, line, first-50-characters-of-snippet)` key. -/
def promptScanSpec (text filePath : String) : List PromptKeywordHit :=
  dedupByKey (blockCandidates filePath text.data ++
    lineCandidates filePath [] (splitLinesJS text.data) 0) []

/-- The block-pattern labels. -/
def blockLabels : List String := blockPatterns.map Prod.fst

/-- The line-heuristic labels. -/
def lineLabels : List String := keywordMatchers.map Prod.fst

/-- Invariant of the shared `seen` set while the line phase is at line
index `i`: every recorded key comes from a block pattern or from an
earlier line. -/
def SeenInv (i : Nat) (seen : List (List Char)) : Prop :=
  ∀ k ∈ seen, ∃ lab n sn, k = hitKey lab n sn ∧
    (lab ∈ blockLabels ∨ (lab ∈ lineLabels ∧ n ≤ i))

/-- `lineAt lines i` – the `i`-th (0-based) line, `""` out of range. -/
def lineAt (lines : List (List Char)) (i : Nat) : List Char :=
  (lines.get? i).getD []

/-! ## The structural extractor (`pythonExtractor.ts`)

`ensurePythonScript` writes a Python program into
`<projectRoot>/.tmp-extractor/python_prompt_extractor.py`;
`extractPythonPrompts` spawns `python3` on it and parses its stdout. The
program's `PromptVisitor` is modelled below; the visitor's per-call body
(`visit_Call`) is `visitCall`, with the enclosing-function stack passed
most-recent-first (so Python's `func_stack[-1]` is `stack.head?`). -/

/-- Python expressions, restricted to the shapes `PromptVisitor` inspects.
`strConst` is `ast.Constant` with a `str` value; `otherConst` any other
constant; a dictionary is a list of key/value pairs. -/
inductive PyExpr : Type where
  | strConst (s : String) : PyExpr
  | otherConst : PyExpr
  | joinedStr (parts : List PyExpr) : PyExpr
  | name (id : String) : PyExpr
  | attributeE (value : PyExpr) (attr : String) : PyExpr
  | dict (entries : List (PyExpr × PyExpr)) : PyExpr
  | listE (elts : List PyExpr) : PyExpr
  | otherExpr : PyExpr

/-- A keyword argument; `arg = none` is a `**kwargs` splat. -/
structure PyKeyword where
  arg : Option String
  value : PyExpr

/-- A call expression (`ast.Call`) with its 1-based source line. -/
structure PyCall where
  func : PyExpr
  args : List PyExpr
  keywords : List PyKeyword
  lineno : Nat

/-- `_callee_segments`: the dotted attribute chain, base first; a
non-`Name` base contributes nothing. -/
def calleeSegments : PyExpr → List String
  | .attributeE v a => calleeSegments v ++ [a]
  | .name i => [i]
  | _ => []

/-- `LLM_CALLEE_NAMES`. -/
def llmCalleeNames : List (List String) :=
  [["openai", "ChatCompletion", "create"],
   ["openai", "chat", "completions", "create"],
   ["client", "chat", "completions", "create"],
   ["anthropic", "messages", "create"],
   ["llm", "invoke"]]

/-- `any(callee[-len(s):] == s for s in LLM_CALLEE_NAMES if len(callee) >= len(s))`. -/
def isLLMCall (callee : List String) : Bool :=
  llmCalleeNames.any (fun s =>
    decide (s.length ≤ callee.length) &&
      decide (callee.drop (callee.length - s.length) = s))

/-- `_extract_string`: a string constant, or the concatenation of the
literal string fragments of an f-string (non-literal parts contribute
nothing); `none` otherwise. -/
def extractString : PyExpr → Option String
  | .strConst s => some s
  | .joinedStr parts =>
    some (String.join (parts.filterMap (fun p =>
      match p with
      | .strConst s => some s
      | _ => none)))
  | _ => none

/-- `_infer_role_from_kw`. -/
def inferRoleFromKw (kw : String) : String :=
  if kw = "system" || kw = "system_prompt" then "system"
  else if kw = "user" || kw = "prompt" || kw = "input" then "user"
  else if kw = "tool" || kw = "tools_prompt" then "tool"
  else "unknown"

/-- `PythonPrompt` of `pythonExtractor.ts` (one artifact). -/
structure PythonPrompt where
  role : String
  text : String
  filePath : String
  line : Nat
  functionName : Option String
  callSignature : String
deriving DecidableEq

/-- `k.s if isinstance(k, ast.Constant) else None` — a non-string constant
key can never equal `"role"`/`"content"`, so it is `none` here too. -/
def dictKeyStr : PyExpr → Option String
  | .strConst s => some s
  | _ => none

/-- The `for k, v in zip(keys, values)` loop: the last `"role"` entry with
a string-constant value and the last `"content"` entry's extracted string
(possibly `none`) win. -/
def dictScan (entries : List (PyExpr × PyExpr)) :
    Option String × Option String :=
  entries.foldl (fun acc e =>
    let acc1 :=
      if dictKeyStr e.1 = some "role" then
        match e.2 with
        | .strConst s => (some s, acc.2)
        | _ => acc
      else acc
    if dictKeyStr e.1 = some "content" then (acc1.1, extractString e.2)
    else acc1) (none, none)

/-- The artifact emitted for one `{"role": ..., "content": ...}` mapping,
guarded by `keys and "role" in keys and "content" in keys` and by the
truthiness of the extracted text (`if text:`); a falsy role becomes
`"unknown"` (`role or "unknown"`). -/
def dictArtifact (fp : String) (lineno : Nat) (fn : Option String) (sig : String)
    (entries : List (PyExpr × PyExpr)) : List PythonPrompt :=
  if !entries.isEmpty &&
      (entries.map (fun e => dictKeyStr e.1)).contains (some "role") &&
      (entries.map (fun e => dictKeyStr e.1)).contains (some "content") then
    match (dictScan entries).2 with
    | some t =>
      if t ≠ "" then
        [⟨(match (dictScan entries).1 with
           | some r => if r = "" then "unknown" else r
           | none => "unknown"), t, fp, lineno, fn, sig⟩]
      else []
    | none => []
  else []

/-- The body of `visit_Call` for one call node: keyword arguments first,
then positional arguments shaped as a mapping or a list of mappings. -/
def visitCall (fp : String) (stack : List String) (c : PyCall) : List PythonPrompt :=
  if isLLMCall (calleeSegments c.func) then
    c.keywords.flatMap (fun kw =>
      match extractString kw.value with
      | some t =>
        if t ≠ "" then
          [⟨(match kw.arg with
             | some a => inferRoleFromKw a
             | none => "unknown"), t, fp, c.lineno, stack.head?,
            String.intercalate "." (calleeSegments c.func)⟩]
        else []
      | none => []) ++
    c.args.flatMap (fun a =>
      match a with
      | .dict entries =>
        dictArtifact fp c.lineno stack.head?
          (String.intercalate "." (calleeSegments c.func)) entries
      | .listE elts =>
        elts.flatMap (fun e =>
          match e with
          | .dict entries =>
            dictArtifact fp c.lineno stack.head?
              (String.intercalate "." (calleeSegments c.func)) entries
          | _ => [])
      | _ => [])
  else []

/-! ## The aggregator (`route.ts`): directory walker -/

/-- A materialized directory tree (the readable filesystem under the
target directory; read failures do not occur in this model). -/
inductive FSEntry : Type where
  | file (name : String) : FSEntry
  | dir (name : String) (entries : List FSEntry) : FSEntry

def entryName : FSEntry → String
  | .file n => n
  | .dir n _ => n

/-- `path.join(a, b)`. -/
def joinPath (a b : String) : String := a ++ "/" ++ b

/-- The ignore-name set shared by `listAllFiles` and `buildFileTree`. -/
def ignoreNames : List String :=
  [".git", "node_modules", "__pycache__", ".next", ".venv", "venv",
   ".tmp-extractor", "prisma"]

mutual
/-- One entry of the `walk` of `listAllFiles` (after its budget and
ignore checks). -/
def listWalkEntry (maxFiles : Nat) (e : FSEntry) (dirPath : String)
    (out : List String) : List String :=
  match e with
  | .dir n children => listWalkList maxFiles children (joinPath dirPath n) out
  | .file n => out ++ [joinPath dirPath n]

/-- The entry loop of the `walk` of `listAllFiles`: the `maxFiles` check
precedes the ignore check, as in the source. -/
def listWalkList (maxFiles : Nat) (es : List FSEntry) (dirPath : String)
    (out : List String) : List String :=
  match es with
  | [] => out
  | e :: es =>
    if out.length ≥ maxFiles then out
    else if entryName e ∈ ignoreNames then listWalkList maxFiles es dirPath out
    else listWalkList maxFiles es dirPath (listWalkEntry maxFiles e dirPath out)
end

/-- `listAllFiles(root, maxFiles)` over a materialized root. -/
def listAllFiles (root : String) (entries : List FSEntry) (maxFiles : Nat) :
    List String :=
  listWalkList maxFiles entries root []

/-- `FileTreeNode` of `route.ts` (`children` only on directory nodes). -/
inductive FileTreeNode : Type where
  | dirNode (name path : String) (children : List FileTreeNode) : FileTreeNode
  | fileNode (name path : String) : FileTreeNode

/-- ASCII `toLowerCase` (sufficient for the `"prisma"` substring check). -/
def toLowerStr (s : String) : String := String.mk (s.data.map lowerChar)

/-- Substring containment (`String.prototype.includes`). -/
def containsSub (needle hay : List Char) : Bool :=
  (List.range (hay.length + 1)).any (fun i => matchesAt needle hay i)

/-- Lexicographic code-point comparison of two names. -/
def charsLe : List Char → List Char → Bool
  | [], _ => true
  | _ :: _, [] => false
  | a :: as, b :: bs => if a = b then charsLe as bs else decide (a < b)

/-- Name comparison used by the entry sort. -/
def nameLe (a b : String) : Bool := charsLe a.data b.data

/-- Stable insertion of an entry after all entries with a smaller-or-equal
name. -/
def insertEntry (x : FSEntry) : List FSEntry → List FSEntry
  | [] => [x]
  | y :: ys =>
    if nameLe (entryName y) (entryName x) then y :: insertEntry x ys
    else x :: y :: ys

/-- `entries.sort((a, b) => a.name.localeCompare(b.name))`: a stable sort
by name, modelled with code-point order. -/
def sortEntries (es : List FSEntry) : List FSEntry :=
  es.foldl (fun acc e => insertEntry e acc) []

mutual
/-- Size of a materialized tree, used only to pick a recursion budget. -/
def fsSize : FSEntry → Nat
  | .file _ => 1
  | .dir _ children => 1 + fsSizeList children

/-- Size of a list of materialized trees. -/
def fsSizeList : List FSEntry → Nat
  | [] => 0
  | e :: es => fsSize e + fsSizeList es
end

mutual
/-- The `walk` of `buildFileTree` on one directory: the depth budget and
the node budget are checked before reading and sorting the entries. The
first argument is a recursion budget; the walk of the source terminates,
and every theorem below holds for every budget. -/
def buildWalkDirF (maxDepth maxNodes : Nat) : Nat → String → List FSEntry →
    String → Nat → Nat → FileTreeNode × Nat
  | 0, name, _, dirPath, _, count => (.dirNode name dirPath [], count)
  | fuel + 1, name, entries, dirPath, depth, count =>
    if depth > maxDepth || count ≥ maxNodes then (.dirNode name dirPath [], count)
    else
      match buildWalkListF maxDepth maxNodes fuel (sortEntries entries)
          dirPath depth count with
      | (children, c) => (.dirNode name dirPath children, c)

/-- The entry loop of the `walk` of `buildFileTree`: the node-budget check,
then the ignore-name check, then the lower-cased-path `"prisma"` check; a
directory child is recursed into before `nodeCount` is incremented for it,
exactly as in the source. -/
def buildWalkListF (maxDepth maxNodes : Nat) : Nat → List FSEntry → String →
    Nat → Nat → List FileTreeNode × Nat
  | 0, _, _, _, count => ([], count)
  | fuel + 1, es, dirPath, depth, count =>
    match es with
    | [] => ([], count)
    | e :: es =>
      if count ≥ maxNodes then ([], count)
      else if entryName e ∈ ignoreNames then
        buildWalkListF maxDepth maxNodes fuel es dirPath depth count
      else if containsSub "prisma".data
          (toLowerStr (joinPath dirPath (entryName e))).data then
        buildWalkListF maxDepth maxNodes fuel es dirPath depth count
      else
        match e with
        | .dir n children =>
          match buildWalkDirF maxDepth maxNodes fuel n children
              (joinPath dirPath n) (depth + 1) count with
          | (node, c) =>
            match buildWalkListF maxDepth maxNodes fuel es dirPath depth (c + 1) with
            | (rest, cF) => (node :: rest, cF)
        | .file n =>
          match buildWalkListF maxDepth maxNodes fuel es dirPath depth (count + 1) with
          | (rest, cF) =>
            (FileTreeNode.fileNode n (joinPath dirPath n) :: rest, cF)
end

/-- `buildFileTree(root, {maxDepth, maxNodes})` over a materialized root:
the walk starts at the root directory with `depth = 1` and `nodeCount = 0`.
The budget `2 * fsSizeList entries + 2` exceeds the depth of the call tree
of the source recursion, so no truncation occurs. -/
def buildFileTree (rootName root : String) (entries : List FSEntry)
    (maxDepth maxNodes : Nat) : FileTreeNode :=
  (buildWalkDirF maxDepth maxNodes (2 * fsSizeList entries + 2) rootName entries
    root 1 0).1

mutual
/-- Number of nodes of a tree, the node itself included. -/
def treeNodes : FileTreeNode → Nat
  | .fileNode _ _ => 1
  | .dirNode _ _ children => 1 + treeNodesList children

/-- Total number of nodes of a list of trees. -/
def treeNodesList : List FileTreeNode → Nat
  | [] => 0
  | t :: ts => treeNodes t + treeNodesList ts
end

/-- The number of non-root nodes of a built tree. -/
def nonRootNodes : FileTreeNode → Nat
  | .fileNode _ _ => 0
  | .dirNode _ _ children => treeNodesList children

/-! ## Claim C10: the aggregation loop of POST -/

/-- A file visited by the scan loop of POST: its path, its size reported
by stat, and its decoded content. -/
structure FileEntry where
  path : String
  size : Nat
  content : String

/-- The per-file aggregation loop of POST: skip paths containing
"prisma" (case-insensitively) and files over 1 MB; append the first 5
secret findings and the first 10 lexical hits of each remaining file;
stop when the aggregated secrets list exceeds 200 entries, the check
running only after the current file's findings were appended. Pushing
`findings.slice(0, 5)` only when `findings.length` is truthy equals
always appending the first five elements, because the slice of an empty
list is empty. -/
def scanLoop : List FileEntry → List SecretFinding → List PromptKeywordHit →
    List SecretFinding × List PromptKeywordHit
  | [], s, p => (s, p)
  | f :: fs, s, p =>
    if containsSub "prisma".data (toLowerStr f.path).data then scanLoop fs s p
    else if f.size > 1024 * 1024 then scanLoop fs s p
    else
      if (s ++ (scanTextForSecrets f.content f.path).take 5).length > 200 then
        (s ++ (scanTextForSecrets f.content f.path).take 5,
         p ++ (scanTextForPromptKeywords f.content f.path).take 10)
      else
        scanLoop fs (s ++ (scanTextForSecrets f.content f.path).take 5)
          (p ++ (scanTextForPromptKeywords f.content f.path).take 10)

/-- A file whose single line holds five distinct OpenAI-style tokens, so
its scan yields five secret findings. -/
def fiveTokenFile : FileEntry :=
  ⟨"/r/f.txt", 0,
   "sk-aaaaaaaaaaaaaaaaaaaa sk-bbbbbbbbbbbbbbbbbbbb sk-cccccccccccccccccccc sk-dddddddddddddddddddd sk-eeeeeeeeeeeeeeeeeeee"⟩

/-! ## Claim C3: extractor failure handling -/

/-- Outcome of the spawned extractor process: its exit code and the
collected stdout and stderr streams. -/
structure ProcOutcome where
  exitCode : Int
  stdout : String
  stderr : String

/-- `extractPythonPrompts` after the spawn completed, parameterized by
the process outcome and by `JSON.parse` (an error value is a thrown
parse exception): a non-zero exit code rejects with an
"Extractor failed" error; otherwise the promise resolves with the parse
result, or rejects with the parse error. -/
def extractPromptsOutcome (proc : ProcOutcome)
    (jsonParse : String → Except String (List PythonPrompt)) :
    Except String (List PythonPrompt) :=
  if proc.exitCode ≠ 0 then .error ("Extractor failed: " ++ proc.stderr)
  else jsonParse proc.stdout

/-- The extraction stage of POST: the call to `extractPythonPrompts` is
wrapped in try/catch, and any rejection is replaced by the empty list. -/
def postExtractStage (proc : ProcOutcome)
    (jsonParse : String → Except String (List PythonPrompt)) :
    List PythonPrompt :=
  match extractPromptsOutcome proc jsonParse with
  | .ok ps => ps
  | .error _ => []

/-! ## Claim C9: the model-based analysis stage -/

/-- A JSON value, as produced by `JSON.parse` (object fields in
occurrence order). -/
inductive JsonVal : Type where
  | nullV : JsonVal
  | boolV (b : Bool) : JsonVal
  | numV (n : Int) : JsonVal
  | strV (s : String) : JsonVal
  | arrV (xs : List JsonVal) : JsonVal
  | objV (fields : List (String × JsonVal)) : JsonVal

/-- `parsed?.summary`-style field access: `none` on non-objects and
missing fields. -/
def jsField (j : JsonVal) (k : String) : Option JsonVal :=
  match j with
  | .objV fields => (fields.find? (fun f => f.1 = k)).map Prod.snd
  | _ => none

/-- JavaScript truthiness of an optional JSON value (`undefined`, `null`,
`false`, `0`, and `""` are falsy). -/
def jsTruthy : Option JsonVal → Bool
  | none => false
  | some .nullV => false
  | some (.boolV b) => b
  | some (.numV n) => n ≠ 0
  | some (.strV s) => s ≠ ""
  | some (.arrV _) => true
  | some (.objV _) => true

/-- `Array.isArray` on an optional JSON value. -/
def isJsonArray : Option JsonVal → Bool
  | some (.arrV _) => true
  | _ => false

/-- The opening brace character. -/
def openBrace : Char := Char.ofNat 123

/-- The closing brace character. -/
def closeBrace : Char := Char.ofNat 125

/-- `content.indexOf(c)` (`none` for -1). -/
def indexOfChar (c : Char) (s : List Char) : Option Nat :=
  s.findIdx? (fun x => x = c)

/-- `content.lastIndexOf(c)` (`none` for -1). -/
def lastIndexOfChar (c : Char) (s : List Char) : Option Nat :=
  (s.reverse.findIdx? (fun x => x = c)).map (fun i => s.length - 1 - i)

/-- The reply-narrowing step of analyzePromptContext: when both an
opening and a closing brace occur, keep `content.slice(firstBrace,
lastBrace + 1)`; otherwise keep the whole content. -/
def braceSlice (content : List Char) : List Char :=
  match indexOfChar openBrace content, lastIndexOfChar closeBrace content with
  | some f, some l => (content.take (l + 1)).drop f
  | _, _ => content

/-- `analyzePromptContext`, parameterized by the configured credential,
by the network outcome (`none` when the fetch or its JSON decoding
throws, or when the reply carries no message content — all paths that
the source maps to `null` via its catch or its `!content` check), and by
`JSON.parse` on the narrowed text (`none` for a parse exception). The
credential check `if (!apiKey) return null` precedes every use of the
network, and the result is the parsed object only when `parsed?.summary`
is truthy and `parsed?.files` is an array. -/
def analyzePromptContext (apiKey : Option String)
    (netContent : Option (List Char))
    (jsonParse : List Char → Option JsonVal) : Option JsonVal :=
  match apiKey with
  | none => none
  | some k =>
    if k = "" then none
    else
      match netContent with
      | none => none
      | some content =>
        match jsonParse (braceSlice content) with
        | none => none
        | some parsed =>
          if ¬ jsTruthy (jsField parsed "summary") ∨
              ¬ isJsonArray (jsField parsed "files") then none
          else some parsed

/-! ## Claim C1: filesystem effects of the pipeline -/

/-- A filesystem as a map from paths to file contents. -/
def FileSys : Type := String → Option String

/-- `ensurePythonScript(tempDir)`: creates the temp directory and writes
the embedded extractor source to `tempDir/python_prompt_extractor.py`,
returning the updated filesystem and the script path. The script source
is a parameter standing for the embedded Python text. -/
def ensurePythonScript (fs : FileSys) (tempDir scriptSource : String) :
    FileSys × String :=
  (fun p => if p = joinPath tempDir "python_prompt_extractor.py"
      then some scriptSource else fs p,
   joinPath tempDir "python_prompt_extractor.py")

/-- The filesystem effect of `extractPythonPrompts(projectRoot)`: it
calls ensurePythonScript on `projectRoot/.tmp-extractor` before spawning
the (read-only) extractor process. -/
def extractPromptsWrite (fs : FileSys) (projectRoot scriptSource : String) :
    FileSys × String :=
  ensurePythonScript fs (joinPath projectRoot ".tmp-extractor") scriptSource

theorem consHead_ne_nil (c : Char) (ls : List (List Char)) : consHead c ls ≠ [] := by
  cases ls <;> simp [consHead]

theorem splitLinesJS_ne_nil (l : List Char) : splitLinesJS l ≠ [] := by
  induction l using splitLinesJS.induct <;>
    simp [splitLinesJS, consHead_ne_nil, *]

theorem digitToChar_inj_aux :
    ∀ d₁ : Nat, d₁ < 10 → ∀ d₂ : Nat, d₂ < 10 →
      (digitToChar d₁ = digitToChar d₂ → d₁ = d₂) := by
  decide

theorem digitToChar_inj {d₁ d₂ : Nat} (h₁ : d₁ < 10) (h₂ : d₂ < 10)
    (h : digitToChar d₁ = digitToChar d₂) : d₁ = d₂ :=
  digitToChar_inj_aux d₁ h₁ d₂ h₂ h

theorem digitToChar_ne_colon_aux : ∀ d : Nat, d < 10 → digitToChar d ≠ ':' := by
  decide

theorem digitToChar_ne_colon {d : Nat} (h : d < 10) : digitToChar d ≠ ':' :=
  digitToChar_ne_colon_aux d h

theorem mapDigitToChar_inj : ∀ l₁ l₂ : List Nat, (∀ d ∈ l₁, d < 10) → (∀ d ∈ l₂, d < 10) →
    l₁.map digitToChar = l₂.map digitToChar → l₁ = l₂ := by
  intro l₁
  induction l₁ with
  | nil => intro l₂ _ _ h; cases l₂ <;> simp_all
  | cons d l ih =>
    intro l₂ hb₁ hb₂ h
    cases l₂ with
    | nil => simp_all
    | cons e l₂t =>
      simp only [List.map_cons, List.cons.injEq] at h
      have hd : d = e := digitToChar_inj (hb₁ d (by simp)) (hb₂ e (by simp)) h.1
      have ht : l = l₂t := ih l₂t (fun x hx => hb₁ x (by simp [hx]))
        (fun x hx => hb₂ x (by simp [hx])) h.2
      rw [hd, ht]

theorem natToDec_inj {m n : Nat} (h : natToDec m = natToDec n) : m = n := by
  unfold natToDec at h
  have digitsBound : ∀ k : Nat, ∀ d ∈ (Nat.digits 10 k).reverse, d < 10 := by
    intro k d hd
    exact Nat.digits_lt_base (by norm_num) (List.mem_reverse.mp hd)
  by_cases hm : m = 0 <;> by_cases hn : n = 0
  · rw [hm, hn]
  · exfalso
    simp only [hm, hn, if_pos, if_neg, if_true, if_false] at h
    have : (Nat.digits 10 n).reverse = [0] := by
      refine mapDigitToChar_inj _ _ (digitsBound n) (by simp) ?_
      simpa using h.symm
    have hdig : Nat.digits 10 n = [0] := by
      have := congrArg List.reverse this
      simpa using this
    have := Nat.ofDigits_digits 10 n
    rw [hdig] at this
    simp [Nat.ofDigits] at this
    exact hn this.symm
  · exfalso
    simp only [hm, hn, if_pos, if_neg, if_true, if_false] at h
    have : (Nat.digits 10 m).reverse = [0] := by
      refine mapDigitToChar_inj _ _ (digitsBound m) (by simp) ?_
      simpa using h
    have hdig : Nat.digits 10 m = [0] := by
      have := congrArg List.reverse this
      simpa using this
    have := Nat.ofDigits_digits 10 m
    rw [hdig] at this
    simp [Nat.ofDigits] at this
    exact hm this.symm
  · simp only [hm, hn, if_neg, if_false] at h
    have : (Nat.digits 10 m).reverse = (Nat.digits 10 n).reverse :=
      mapDigitToChar_inj _ _ (digitsBound m) (digitsBound n) h
    have hdig : Nat.digits 10 m = Nat.digits 10 n := by
      have := congrArg List.reverse this
      simpa using this
    calc m = Nat.ofDigits 10 (Nat.digits 10 m) := (Nat.ofDigits_digits 10 m).symm
    _ = Nat.ofDigits 10 (Nat.digits 10 n) := by rw [hdig]
    _ = n := Nat.ofDigits_digits 10 n

theorem natToDec_colon_free {n : Nat} {c : Char} (hc : c ∈ natToDec n) : c ≠ ':' := by
  unfold natToDec at hc
  by_cases hn : n = 0
  · simp only [hn, if_pos, if_true] at hc
    simp at hc
    rw [hc]
    exact digitToChar_ne_colon (by norm_num)
  · simp only [hn, if_neg, if_false] at hc
    rw [List.mem_map] at hc
    obtain ⟨d, hd, rfl⟩ := hc
    exact digitToChar_ne_colon (Nat.digits_lt_base (by norm_num) (List.mem_reverse.mp hd))

theorem dropWhile_length_le {α : Type} (p : α → Bool) (l : List α) :
    (l.dropWhile p).length ≤ l.length := by
  induction l with
  | nil => simp [List.dropWhile]
  | cons c rest ih =>
    rw [List.dropWhile_cons]
    split
    · exact Nat.le_trans ih (by simp)
    · simp

theorem wordsWS_one (c : Char) : wordsWS [c] = if isJsWS c then [] else [[c]] := rfl

theorem wordsWS_cons_cons (c d : Char) (rest : List Char) :
    wordsWS (c :: d :: rest) =
      if isJsWS c then wordsWS (d :: rest)
      else if isJsWS d then [c] :: wordsWS (d :: rest)
      else consHead c (wordsWS (d :: rest)) := rfl

theorem wordsWS_ws_cons (c : Char) (rest : List Char) (h : isJsWS c) :
    wordsWS (c :: rest) = wordsWS rest := by
  cases rest with
  | nil => rw [wordsWS_one, if_pos h]; rfl
  | cons d rest' => rw [wordsWS_cons_cons, if_pos h]

theorem wordsWS_takeWhile (c : Char) (rest : List Char) (h : ¬ isJsWS c) :
    wordsWS (c :: rest) = (c :: rest.takeWhile (fun d => !isJsWS d)) ::
      wordsWS (rest.dropWhile (fun d => !isJsWS d)) := by
  induction rest generalizing c with
  | nil => rw [wordsWS_one, if_neg h]; simp; rfl
  | cons d rest' ih =>
    by_cases hd : isJsWS d
    · rw [wordsWS_cons_cons, if_neg h, if_pos hd]
      rw [List.takeWhile_cons, List.dropWhile_cons]
      simp [hd]
    · rw [wordsWS_cons_cons, if_neg h, if_neg hd]
      rw [ih d hd]
      rw [List.takeWhile_cons, List.dropWhile_cons]
      simp [hd, consHead]

theorem collapseWS_cons_cons (c d : Char) (rest : List Char) :
    collapseWS (c :: d :: rest) =
      if isJsWS c then
        (if isJsWS d then collapseWS (d :: rest) else ' ' :: collapseWS (d :: rest))
      else c :: collapseWS (d :: rest) := rfl

theorem collapseWS_ws_cons (c : Char) (rest : List Char) (h : isJsWS c) :
    collapseWS (c :: rest) = ' ' :: collapseWS (rest.dropWhile isJsWS) := by
  induction rest generalizing c with
  | nil => simp [collapseWS, h, List.dropWhile]
  | cons d rest' ih =>
    by_cases hd : isJsWS d
    · rw [collapseWS_cons_cons, if_pos h, if_pos hd, ih d hd]
      rw [List.dropWhile_cons, if_pos hd]
    · rw [collapseWS_cons_cons, if_pos h, if_neg hd]
      rw [List.dropWhile_cons, if_neg hd]

theorem collapseWS_cons_nonws (c : Char) (rest : List Char) (h : ¬ isJsWS c) :
    collapseWS (c :: rest) = c :: collapseWS rest := by
  cases rest with
  | nil => simp [collapseWS, h]
  | cons d rest' => simp [collapseWS, h]

theorem dropWhile_ws_append (w x : List Char) (hw : ∀ c ∈ w, isJsWS c) :
    List.dropWhile isJsWS (w ++ x) = List.dropWhile isJsWS x := by
  induction w with
  | nil => simp
  | cons c w' ih =>
    simp only [List.cons_append, List.dropWhile_cons]
    rw [if_pos (hw c (by simp))]
    exact ih (fun d hd => hw d (by simp [hd]))

theorem wordsWS_dropWhile_ws (l : List Char) :
    wordsWS (l.dropWhile isJsWS) = wordsWS l := by
  induction l with
  | nil => simp
  | cons c rest ih =>
    by_cases h : isJsWS c
    · rw [List.dropWhile_cons, if_pos h, ih, wordsWS_ws_cons c rest h]
    · rw [List.dropWhile_cons, if_neg h]

theorem collapseWS_nonws_prefix (t x : List Char) (ht : ∀ c ∈ t, ¬ isJsWS c) :
    collapseWS (t ++ x) = t ++ collapseWS x := by
  induction t with
  | nil => simp
  | cons c t' ih =>
    simp only [List.cons_append]
    rw [collapseWS_cons_nonws c _ (ht c (by simp))]
    rw [ih (fun d hd => ht d (by simp [hd]))]

theorem dropWhile_eq_self_of_all {α : Type} (p : α → Bool) (l : List α)
    (h : ∀ c ∈ l, ¬ p c) : l.dropWhile p = l := by
  cases l with
  | nil => simp
  | cons c rest =>
    rw [List.dropWhile_cons, if_neg]
    simpa using h c (by simp)

theorem trimWS_all_nonws (y : List Char) (hy : ∀ c ∈ y, ¬ isJsWS c) :
    trimWS y = y := by
  unfold trimWS
  rw [dropWhile_eq_self_of_all _ _ hy]
  rw [dropWhile_eq_self_of_all _ _ (fun c hc => hy c (List.mem_reverse.mp hc))]
  simp

theorem isJsWS_space : isJsWS ' ' = true := rfl

theorem trimWS_ws_cons (c : Char) (z : List Char) (h : isJsWS c) :
    trimWS (c :: z) = trimWS z := by
  unfold trimWS
  rw [List.dropWhile_cons, if_pos h]

theorem dropWhile_head_not {α : Type} (p : α → Bool) (l : List α) {c : α} {t : List α}
    (h : l.dropWhile p = c :: t) : p c = false := by
  induction l with
  | nil => simp [List.dropWhile] at h
  | cons d rest ih =>
    rw [List.dropWhile_cons] at h
    split at h
    · exact ih h
    · rename_i hd
      cases h
      simpa using hd

theorem dropWhile_all {α : Type} (p : α → Bool) (l : List α) (h : ∀ c ∈ l, p c) :
    l.dropWhile p = [] := by
  induction l with
  | nil => simp
  | cons c rest ih =>
    rw [List.dropWhile_cons, if_pos (h c (by simp))]
    exact ih (fun d hd => h d (by simp [hd]))

theorem dropWhile_ne_nil_of_mem {α : Type} (p : α → Bool) (l : List α) {c : α}
    (hc : c ∈ l) (hpc : ¬ p c) : l.dropWhile p ≠ [] := by
  induction l with
  | nil => simp at hc
  | cons d rest ih =>
    rw [List.dropWhile_cons]
    split
    · rename_i hd
      rcases List.mem_cons.mp hc with h | h
      · exact absurd (h ▸ hd) hpc
      · exact ih h
    · simp

theorem normalizeWhitespace_ws_cons (c : Char) (rest : List Char) (h : isJsWS c) :
    normalizeWhitespace (c :: rest) = normalizeWhitespace rest := by
  unfold normalizeWhitespace
  rw [collapseWS_ws_cons c rest h, trimWS_ws_cons _ _ isJsWS_space]
  cases rest with
  | nil => simp [List.dropWhile]
  | cons e rest' =>
    by_cases he : isJsWS e
    · rw [List.dropWhile_cons, if_pos he, collapseWS_ws_cons e rest' he,
        trimWS_ws_cons _ _ isJsWS_space]
    · rw [List.dropWhile_cons, if_neg he]

theorem trimWS_append_ws (y w : List Char) (hw : ∀ c ∈ w, isJsWS c) :
    trimWS (y ++ w) = trimWS y := by
  by_cases hy : ∀ c ∈ y, isJsWS c
  · unfold trimWS
    rw [dropWhile_ws_append y w hy, dropWhile_all _ w hw, dropWhile_all _ y hy]
  · push_neg at hy
    obtain ⟨c, hc, hpc⟩ := hy
    have hne : y.dropWhile isJsWS ≠ [] := dropWhile_ne_nil_of_mem _ y hc (by simpa using hpc)
    unfold trimWS
    rw [List.dropWhile_append, if_neg (by simpa using hne)]
    rw [List.reverse_append]
    rw [dropWhile_ws_append _ _ (fun d hd => hw d (List.mem_reverse.mp hd))]

theorem trimWS_word_sep (a : Char) (y' z' : List Char) (f : Char)
    (hy : ∀ c ∈ a :: y', ¬ isJsWS c) (hf : ¬ isJsWS f) :
    trimWS ((a :: y') ++ ' ' :: f :: z') = (a :: y') ++ ' ' :: trimWS (f :: z') := by
  have h1 : List.dropWhile isJsWS ((a :: y') ++ ' ' :: f :: z') =
      (a :: y') ++ ' ' :: f :: z' := by
    rw [List.cons_append, List.dropWhile_cons, if_neg (by simpa using hy a (by simp))]
  have h2 : List.dropWhile isJsWS (f :: z') = f :: z' := by
    rw [List.dropWhile_cons, if_neg (by simpa using hf)]
  unfold trimWS
  rw [h1, h2, List.reverse_append]
  have h3 : (' ' :: f :: z').reverse = (f :: z').reverse ++ [' '] := by
    simp
  rw [h3, List.append_assoc]
  have hne : (f :: z').reverse.dropWhile isJsWS ≠ [] :=
    dropWhile_ne_nil_of_mem _ _ (List.mem_reverse.mpr (show f ∈ f :: z' by simp))
      (by simpa using hf)
  rw [List.dropWhile_append, if_neg (by simpa using hne)]
  simp

theorem joinSp_one (w : List Char) : joinSp [w] = w := rfl

theorem joinSp_cons_cons (w v : List Char) (rest : List (List Char)) :
    joinSp (w :: v :: rest) = w ++ ' ' :: joinSp (v :: rest) := rfl

/-- Bridge: `replace(/\s+/g, " ").trim()` produces exactly the
space-joined list of maximal non-whitespace runs. -/
theorem normalizeWhitespace_eq_joinSp (l : List Char) :
    normalizeWhitespace l = joinSp (wordsWS l) := by
  have H : ∀ n : Nat, ∀ l : List Char, l.length ≤ n →
      normalizeWhitespace l = joinSp (wordsWS l) := by
    intro n
    induction n with
    | zero =>
      intro l hl
      rw [List.length_eq_zero.mp (Nat.le_zero.mp hl)]
      rfl
    | succ n ih =>
      intro l hl
      cases l with
      | nil => rfl
      | cons c rest =>
        by_cases hc : isJsWS c
        · rw [normalizeWhitespace_ws_cons c rest hc, wordsWS_ws_cons c rest hc]
          exact ih rest (by simpa using Nat.lt_succ_iff.mp (Nat.lt_of_lt_of_le (by simp) hl))
        · rw [wordsWS_takeWhile c rest hc]
          unfold normalizeWhitespace
          rw [collapseWS_cons_nonws c rest hc]
          have hrestLen : rest.length ≤ n := by
            have := hl
            simp only [List.length_cons] at this
            omega
          have ht : ∀ x ∈ rest.takeWhile (fun d => !isJsWS d), ¬ isJsWS x := by
            intro x hx
            have := List.mem_takeWhile_imp hx
            simpa using this
          have key : collapseWS rest = rest.takeWhile (fun d => !isJsWS d) ++
              collapseWS (rest.dropWhile (fun d => !isJsWS d)) := by
            conv_lhs => rw [← List.takeWhile_append_dropWhile (fun d => !isJsWS d) rest]
            exact collapseWS_nonws_prefix _ _ ht
          rw [key]
          cases hd : rest.dropWhile (fun d => !isJsWS d) with
          | nil =>
            simp only [show collapseWS [] = [] from rfl, List.append_nil]
            rw [trimWS_all_nonws _ (by
              intro x hx
              rcases List.mem_cons.mp hx with h | h
              · exact h ▸ hc
              · exact ht x h)]
            rfl
          | cons e d' =>
            have he : isJsWS e := by
              have := dropWhile_head_not (fun d => !isJsWS d) rest hd
              simpa using this
            rw [collapseWS_ws_cons e d' he]
            cases hu : d'.dropWhile isJsWS with
            | nil =>
              rw [show (c :: (rest.takeWhile (fun d => !isJsWS d) ++
                  ' ' :: collapseWS [])) = (c :: rest.takeWhile (fun d => !isJsWS d)) ++
                  ' ' :: collapseWS [] by simp]
              rw [trimWS_append_ws _ _ (by
                intro x hx
                rcases List.mem_cons.mp hx with h | h
                · rw [h]; exact isJsWS_space
                · simp [collapseWS] at h)]
              rw [trimWS_all_nonws _ (by
                intro x hx
                rcases List.mem_cons.mp hx with h | h
                · exact h ▸ hc
                · exact ht x h)]
              have hwd : wordsWS (e :: d') = [] := by
                rw [wordsWS_ws_cons e d' he, ← wordsWS_dropWhile_ws d', hu]
                rfl
              rw [hwd]
              rfl
            | cons f u' =>
              have hf : ¬ isJsWS f := by
                have := dropWhile_head_not isJsWS d' hu
                simpa using this
              rw [collapseWS_cons_nonws f u' hf]
              rw [show (c :: (rest.takeWhile (fun d => !isJsWS d) ++
                  ' ' :: f :: collapseWS u')) = (c :: rest.takeWhile (fun d => !isJsWS d)) ++
                  ' ' :: f :: collapseWS u' by simp]
              rw [trimWS_word_sep c _ _ f (by
                intro x hx
                rcases List.mem_cons.mp hx with h | h
                · exact h ▸ hc
                · exact ht x h) hf]
              have hnorm : trimWS (f :: collapseWS u') =
                  joinSp (wordsWS (f :: u')) := by
                have : trimWS (collapseWS (f :: u')) = joinSp (wordsWS (f :: u')) := by
                  have hlen : (f :: u').length ≤ n := by
                    have h1 : (f :: u').length ≤ d'.length := by
                      rw [← hu]
                      exact dropWhile_length_le isJsWS d'
                    have h2 : d'.length < rest.length := by
                      have h3 : (e :: d').length ≤ rest.length := by
                        rw [← hd]
                        exact dropWhile_length_le _ rest
                      simp only [List.length_cons] at h3
                      omega
                    omega
                  exact ih (f :: u') hlen
                rw [collapseWS_cons_nonws f u' hf] at this
                exact this
              rw [hnorm]
              have hwd : wordsWS (e :: d') = wordsWS (f :: u') := by
                rw [wordsWS_ws_cons e d' he, ← wordsWS_dropWhile_ws d', hu]
              rw [hwd]
              cases hw : wordsWS (f :: u') with
              | nil =>
                exfalso
                rw [wordsWS_takeWhile f u' hf] at hw
                simp at hw
              | cons w ws =>
                rw [joinSp_cons_cons]
  exact H l.length l (Nat.le_refl _)

theorem wordsWS_ws_append (w x : List Char) (hw : ∀ c ∈ w, isJsWS c) :
    wordsWS (w ++ x) = wordsWS x := by
  induction w with
  | nil => simp
  | cons c w' ih =>
    rw [List.cons_append, wordsWS_ws_cons c _ (hw c (by simp))]
    exact ih (fun d hd => hw d (by simp [hd]))

theorem wordsWS_all_ws (l : List Char) (h : ∀ c ∈ l, isJsWS c) : wordsWS l = [] := by
  have := wordsWS_ws_append l [] h
  simpa using this

theorem wordsWS_append_ws (x w : List Char) (hw : ∀ c ∈ w, isJsWS c) :
    wordsWS (x ++ w) = wordsWS x := by
  induction x with
  | nil => simpa using wordsWS_all_ws w hw
  | cons c x' ih =>
    by_cases hc : isJsWS c
    · rw [List.cons_append, wordsWS_ws_cons c _ hc, ih, wordsWS_ws_cons c x' hc]
    · cases x' with
      | nil =>
        cases hwc : w with
        | nil => simp
        | cons g w'' =>
          have hg : isJsWS g := hw g (by simp [hwc])
          have hallws : ∀ z ∈ g :: w'', isJsWS z := by
            rw [← hwc]
            exact hw
          rw [show ([c] ++ g :: w'') = c :: g :: w'' from rfl]
          rw [wordsWS_cons_cons c g w'', if_neg hc, if_pos hg]
          rw [wordsWS_all_ws (g :: w'') hallws, wordsWS_one, if_neg hc]
      | cons d x'' =>
        simp only [List.cons_append]
        by_cases hd : isJsWS d
        · rw [wordsWS_cons_cons c d (x'' ++ w), if_neg hc, if_pos hd,
            wordsWS_cons_cons c d x'', if_neg hc, if_pos hd]
          rw [List.cons_append] at ih
          rw [ih]
        · rw [wordsWS_cons_cons c d (x'' ++ w), if_neg hc, if_neg hd,
            wordsWS_cons_cons c d x'', if_neg hc, if_neg hd]
          rw [List.cons_append] at ih
          rw [ih]

theorem wordsWS_ne_nil_of_mem (l : List Char) {c : Char} (hc : c ∈ l)
    (hnc : ¬ isJsWS c) : wordsWS l ≠ [] := by
  induction l with
  | nil => simp at hc
  | cons d rest ih =>
    by_cases hd : isJsWS d
    · rw [wordsWS_ws_cons d rest hd]
      rcases List.mem_cons.mp hc with h | h
      · exact absurd (h ▸ hd) hnc
      · exact ih h
    · rw [wordsWS_takeWhile d rest hd]
      simp

theorem wordsWS_mem_ne_nil (l : List Char) : ∀ w ∈ wordsWS l, w ≠ [] := by
  induction l using wordsWS.induct with
  | case1 => simp [wordsWS]
  | case2 c hc =>
    rw [wordsWS_one, if_pos hc]
    simp
  | case3 c hc =>
    rw [wordsWS_one, if_neg hc]
    simp
  | case4 c d rest hc ih =>
    rw [wordsWS_cons_cons, if_pos hc]
    exact ih
  | case5 c d rest hc hd ih =>
    rw [wordsWS_cons_cons, if_neg hc, if_pos hd]
    intro w hw
    rcases List.mem_cons.mp hw with h | h
    · simp [h]
    · exact ih w h
  | case6 c d rest hc hd ih =>
    rw [wordsWS_cons_cons, if_neg hc, if_neg hd]
    intro w hw
    cases hws : wordsWS (d :: rest) with
    | nil =>
      rw [hws] at hw
      simp only [consHead] at hw
      rcases List.mem_singleton.mp hw with h
      simp [h]
    | cons v vs =>
      rw [hws] at hw
      simp only [consHead] at hw
      rcases List.mem_cons.mp hw with h | h
      · simp [h]
      · exact ih w (by rw [hws]; simp [h])

theorem normalizeWhitespace_ne_nil (l : List Char) {c : Char} (hc : c ∈ l)
    (hnc : ¬ isJsWS c) : normalizeWhitespace l ≠ [] := by
  rw [normalizeWhitespace_eq_joinSp]
  cases hw : wordsWS l with
  | nil => exact absurd hw (wordsWS_ne_nil_of_mem l hc hnc)
  | cons w ws =>
    cases ws with
    | nil =>
      rw [joinSp_one]
      exact wordsWS_mem_ne_nil l w (by rw [hw]; simp)
    | cons v vs =>
      rw [joinSp_cons_cons]
      cases w <;> simp

theorem sepNl_all_ws : ∀ x ∈ [' ', '\n', ' '], isJsWS x := by decide

/-- Dropping the empty members of the three-line context before joining
does not change the normalized snippet. -/
theorem snippet_elision (p c n : List Char) (hc : c ≠ []) :
    normalizeWhitespace (joinNlSep (filterTruthy [p, c, n])) =
      normalizeWhitespace (joinNlSep [p, c, n]) := by
  have hce : c.isEmpty = false := by
    cases c with
    | nil => exact absurd rfl hc
    | cons a b => rfl
  rw [normalizeWhitespace_eq_joinSp, normalizeWhitespace_eq_joinSp]
  by_cases hp : p = [] <;> by_cases hn : n = []
  · subst hp hn
    simp only [filterTruthy, List.filter, hce, List.isEmpty_nil, Bool.not_true,
      Bool.not_false]
    rw [show joinNlSep [c] = c from rfl]
    rw [show joinNlSep [[], c, []] =
      [' ', '\n', ' '] ++ (c ++ [' ', '\n', ' ']) by simp [joinNlSep]]
    rw [wordsWS_ws_append _ _ sepNl_all_ws, wordsWS_append_ws _ _ sepNl_all_ws]
  · subst hp
    have hne : n.isEmpty = false := by
      cases n with
      | nil => exact absurd rfl hn
      | cons a b => rfl
    simp only [filterTruthy, List.filter, hce, hne, List.isEmpty_nil, Bool.not_true,
      Bool.not_false]
    rw [show joinNlSep [[], c, n] =
      [' ', '\n', ' '] ++ joinNlSep [c, n] by simp [joinNlSep]]
    rw [wordsWS_ws_append _ _ sepNl_all_ws]
  · subst hn
    have hpe : p.isEmpty = false := by
      cases p with
      | nil => exact absurd rfl hp
      | cons a b => rfl
    simp only [filterTruthy, List.filter, hce, hpe, List.isEmpty_nil, Bool.not_true,
      Bool.not_false]
    rw [show joinNlSep [p, c, []] =
      (p ++ ' ' :: '\n' :: ' ' :: c) ++ [' ', '\n', ' '] by simp [joinNlSep]]
    rw [show joinNlSep [p, c] = p ++ ' ' :: '\n' :: ' ' :: c from rfl]
    rw [wordsWS_append_ws _ _ sepNl_all_ws]
  · have hne : n.isEmpty = false := by
      cases n with
      | nil => exact absurd rfl hn
      | cons a b => rfl
    have hpe : p.isEmpty = false := by
      cases p with
      | nil => exact absurd rfl hp
      | cons a b => rfl
    simp only [filterTruthy, List.filter, hce, hne, hpe, Bool.not_false]

theorem starMatches_self (p : Char → Bool) (s : List Char) : s ∈ starMatches p s := by
  cases s with
  | nil => simp [starMatches]
  | cons c rest =>
    rw [starMatches]
    split <;> simp

theorem starMatches_all (p : Char → Bool) (pre : List Char) (h : ∀ c ∈ pre, p c) :
    [] ∈ starMatches p pre := by
  induction pre with
  | nil => simp [starMatches]
  | cons c pre' ih =>
    rw [starMatches, if_pos (h c (by simp))]
    exact List.mem_append_left _ (ih (fun d hd => h d (by simp [hd])))

theorem starMatches_decomp (p : Char → Bool) (s rest : List Char)
    (h : rest ∈ starMatches p s) : ∃ pre, s = pre ++ rest ∧ ∀ c ∈ pre, p c := by
  induction s generalizing rest with
  | nil =>
    simp [starMatches] at h
    exact ⟨[], by simp [h]⟩
  | cons c s' ih =>
    rw [starMatches] at h
    by_cases hc : p c
    · rw [if_pos hc] at h
      rcases List.mem_append.mp h with h1 | h1
      · obtain ⟨pre', hpre, hall⟩ := ih rest h1
        refine ⟨c :: pre', by simp [hpre], ?_⟩
        intro d hd
        rcases List.mem_cons.mp hd with h2 | h2
        · exact h2 ▸ hc
        · exact hall d h2
      · refine ⟨[], ?_, by simp⟩
        simpa using (List.mem_singleton.mp h1).symm
    · rw [if_neg hc] at h
      refine ⟨[], ?_, by simp⟩
      simpa using (List.mem_singleton.mp h).symm

theorem starMatches_append_suf (p : Char → Bool) (s rest suf : List Char)
    (h : rest ∈ starMatches p s) : rest ++ suf ∈ starMatches p (s ++ suf) := by
  induction s generalizing rest with
  | nil =>
    simp [starMatches] at h
    rw [h]
    simpa using starMatches_self p suf
  | cons c s' ih =>
    rw [starMatches] at h
    rw [List.cons_append, starMatches]
    by_cases hc : p c
    · rw [if_pos hc] at h
      rw [if_pos hc]
      rcases List.mem_append.mp h with h1 | h1
      · exact List.mem_append_left _ (ih rest h1)
      · rw [List.mem_singleton.mp h1]
        simp
    · rw [if_neg hc] at h
      rw [if_neg hc]
      rw [List.mem_singleton.mp h]
      simp

theorem reMatches_append_suf (r : RE) (s rest suf : List Char)
    (h : rest ∈ reMatches r s) : rest ++ suf ∈ reMatches r (s ++ suf) := by
  induction r generalizing s rest with
  | eps =>
    simp [reMatches] at h
    simp [reMatches, h]
  | cls p =>
    cases s with
    | nil => simp [reMatches] at h
    | cons c s' =>
      rw [reMatches] at h
      split at h
      · rw [List.mem_singleton.mp h, List.cons_append, reMatches]
        rename_i hc
        rw [if_pos hc]
        simp
      · simp at h
  | seq a b iha ihb =>
    rw [reMatches] at h ⊢
    rw [List.mem_flatMap] at h ⊢
    obtain ⟨mid, hmid, hrest⟩ := h
    exact ⟨mid ++ suf, iha s mid hmid, ihb mid rest hrest⟩
  | alt a b iha ihb =>
    rw [reMatches] at h ⊢
    rcases List.mem_append.mp h with h1 | h1
    · exact List.mem_append_left _ (iha s rest h1)
    · exact List.mem_append_right _ (ihb s rest h1)
  | star p =>
    rw [reMatches] at h ⊢
    exact starMatches_append_suf p s rest suf h

theorem reMatches_prefix (r : RE) (s rest : List Char)
    (h : rest ∈ reMatches r s) : ∃ pre, s = pre ++ rest ∧ [] ∈ reMatches r pre := by
  induction r generalizing s rest with
  | eps =>
    simp [reMatches] at h
    exact ⟨[], by simp [h], by simp [reMatches]⟩
  | cls p =>
    cases s with
    | nil => simp [reMatches] at h
    | cons c s' =>
      rw [reMatches] at h
      split at h
      · rename_i hc
        refine ⟨[c], by simp [List.mem_singleton.mp h], ?_⟩
        rw [reMatches, if_pos hc]
        simp
      · simp at h
  | seq a b iha ihb =>
    rw [reMatches, List.mem_flatMap] at h
    obtain ⟨mid, hmid, hrest⟩ := h
    obtain ⟨pre₁, hs, hpre₁⟩ := iha s mid hmid
    obtain ⟨pre₂, hmid2, hpre₂⟩ := ihb mid rest hrest
    refine ⟨pre₁ ++ pre₂, by simp [hs, hmid2], ?_⟩
    rw [reMatches, List.mem_flatMap]
    refine ⟨pre₂, ?_, hpre₂⟩
    have := reMatches_append_suf a pre₁ [] pre₂ hpre₁
    simpa using this
  | alt a b iha ihb =>
    rw [reMatches] at h
    rcases List.mem_append.mp h with h1 | h1
    · obtain ⟨pre, hs, hpre⟩ := iha s rest h1
      exact ⟨pre, hs, by rw [reMatches]; exact List.mem_append_left _ hpre⟩
    · obtain ⟨pre, hs, hpre⟩ := ihb s rest h1
      exact ⟨pre, hs, by rw [reMatches]; exact List.mem_append_right _ hpre⟩
  | star p =>
    rw [reMatches] at h
    obtain ⟨pre, hs, hall⟩ := starMatches_decomp p s rest h
    exact ⟨pre, hs, by rw [reMatches]; exact starMatches_all p pre hall⟩

theorem head?_mem {α : Type} {l : List α} {a : α} (h : l.head? = some a) : a ∈ l := by
  cases l with
  | nil => simp at h
  | cons b rest =>
    simp only [List.head?_cons, Option.some.injEq] at h
    simp [h]

/-- Every match reported by the exec loop is a substring of the scanned
text that the pattern fully matches. -/
theorem execAllF_sound (r : RE) (fuel : Nat) :
    ∀ (s : List Char) (idx i : Nat) (m : List Char),
      (i, m) ∈ execAllF r fuel s idx →
      ∃ pre post, s = pre ++ m ++ post ∧ reFull r m := by
  induction fuel with
  | zero => intro s idx i m h; simp [execAllF] at h
  | succ fuel ih =>
    intro s idx i m h
    cases s with
    | nil =>
      rw [execAllF] at h
      split at h
      · simp at h
      · rename_i hne
        simp only [List.mem_singleton, Prod.mk.injEq] at h
        obtain ⟨-, rfl⟩ := h
        refine ⟨[], [], by simp, ?_⟩
        cases hh : (reMatches r []).head? with
        | none =>
          exfalso
          rw [List.head?_eq_none_iff] at hh
          rw [hh] at hne
          simp at hne
        | some restM =>
          have hmem := head?_mem hh
          obtain ⟨pre, hpre, hfull⟩ := reMatches_prefix r [] restM hmem
          have : pre = [] := by
            cases pre with
            | nil => rfl
            | cons x xs => simp at hpre
          rw [this] at hfull
          exact hfull
    | cons c rest =>
      rw [execAllF] at h
      cases hh : (reMatches r (c :: rest)).head? with
      | none =>
        rw [hh] at h
        obtain ⟨pre, post, hdecomp, hfull⟩ := ih rest (idx + 1) i m h
        exact ⟨c :: pre, post, by simp [hdecomp], hfull⟩
      | some restM =>
        rw [hh] at h
        simp only at h
        have hmem := head?_mem hh
        obtain ⟨pre, hpre, hfull⟩ := reMatches_prefix r (c :: rest) restM hmem
        by_cases hlen : (c :: rest).length - restM.length = 0
        · rw [if_pos hlen] at h
          rcases List.mem_cons.mp h with h1 | h1
          · obtain ⟨-, rfl⟩ := Prod.mk.injEq .. ▸ h1
            exact ⟨[], c :: rest, by simp, by
              have hlenpre : pre.length = 0 := by
                have hlc := congrArg List.length hpre
                simp only [List.length_cons, List.length_append] at hlc
                simp only [List.length_cons] at hlen
                omega
              rw [List.length_eq_zero.mp hlenpre] at hfull
              exact hfull⟩
          · obtain ⟨pre', post, hdecomp, hfull'⟩ := ih rest (idx + 1) i m h1
            exact ⟨c :: pre', post, by simp [hdecomp], hfull'⟩
        · rw [if_neg hlen] at h
          rcases List.mem_cons.mp h with h1 | h1
          · have hm : m = (c :: rest).take ((c :: rest).length - restM.length) := by
              have := congrArg Prod.snd h1
              simpa using this
            have hpreLen : pre.length = (c :: rest).length - restM.length := by
              have hlc := congrArg List.length hpre
              simp only [List.length_cons, List.length_append] at hlc
              simp only [List.length_cons]
              omega
            have hpreEq : (c :: rest).take ((c :: rest).length - restM.length) = pre := by
              rw [← hpreLen, hpre]
              exact List.take_left pre restM
            refine ⟨[], restM, ?_, ?_⟩
            · rw [hm, hpreEq]
              simpa using hpre
            · rw [hm, hpreEq]
              exact hfull
          · obtain ⟨pre', post, hdecomp, hfull'⟩ :=
              ih ((c :: rest).drop ((c :: rest).length - restM.length)) _ i m h1
            refine ⟨(c :: rest).take ((c :: rest).length - restM.length) ++ pre', post, ?_, hfull'⟩
            conv_lhs => rw [← List.take_append_drop ((c :: rest).length - restM.length) (c :: rest)]
            rw [hdecomp]
            simp

theorem execAll_sound (r : RE) (s : List Char) (i : Nat) (m : List Char)
    (h : (i, m) ∈ execAll r s) : ∃ pre post, s = pre ++ m ++ post ∧ reFull r m :=
  execAllF_sound r (s.length + 1) s 0 i m h

theorem scanLinesForSecrets_mem (filePath : String) :
    ∀ (lines : List (List Char)) (i : Nat) (f : SecretFinding),
      f ∈ scanLinesForSecrets filePath lines i →
      f.filePath = filePath ∧ i + 1 ≤ f.line ∧
        ∃ line, lines.get? (f.line - 1 - i) = some line ∧
          ∃ pat ∈ secretPatterns, ∃ k m, (k, m) ∈ execAll pat.2 line ∧
            f.matchStr = String.mk m := by
  intro lines
  induction lines with
  | nil => intro i f h; simp [scanLinesForSecrets] at h
  | cons line rest ih =>
    intro i f h
    rw [scanLinesForSecrets] at h
    rcases List.mem_append.mp h with h1 | h1
    · rw [List.mem_flatMap] at h1
      obtain ⟨pat, hpat, hf⟩ := h1
      rw [List.mem_map] at hf
      obtain ⟨m, hm, rfl⟩ := hf
      refine ⟨rfl, by simp, line, ?_, pat, hpat, m.1, m.2, hm, rfl⟩
      simp
    · obtain ⟨hfp, hge, line', hline', rest'⟩ := ih (i + 1) f h1
      refine ⟨hfp, by omega, line', ?_, rest'⟩
      have : f.line - 1 - i = (f.line - 1 - (i + 1)) + 1 := by omega
      rw [this]
      simpa using hline'

/-! ## Claim C4 (secret scanner match reporting) -/

/-- C4, counterexample: the claim says each finding's `match` equals the
minimal substring matched by the triggering pattern and is never the whole
line. On the single-line input `"sk-aaaaaaaaaaaaaaaaaaaaa"` (21 trailing characters) the scanner
reports the whole 24-character line as the match, although its 23-character
prefix already fully matches `openai_key` — JavaScript's quantifiers are
greedy, so the reported match is maximal, not minimal. -/
theorem C4_counterexample :
    scanTextForSecrets "sk-aaaaaaaaaaaaaaaaaaaaa" "f" =
      [⟨"sk-aaaaaaaaaaaaaaaaaaaaa", "f", 1⟩] ∧
    splitLinesJS ("sk-aaaaaaaaaaaaaaaaaaaaa".data) = ["sk-aaaaaaaaaaaaaaaaaaaaa".data] ∧
    reFull reOpenai ("sk-aaaaaaaaaaaaaaaaaaaa".data) ∧
    "sk-aaaaaaaaaaaaaaaaaaaa".data ≠ "sk-aaaaaaaaaaaaaaaaaaaaa".data ∧
    "sk-aaaaaaaaaaaaaaaaaaaa".data ++ ['a'] = "sk-aaaaaaaaaaaaaaaaaaaaa".data := by
  refine ⟨by decide, by decide, by decide, by decide, by decide⟩

/-- C4 (amended): `scanTextForSecrets` reports, per line and per pattern in
declaration order, every successive `exec` match; each finding carries the
scanned file path, a 1-based line number indexing a real line of the split
text, and a `match` equal to the substring of that line consumed by the
triggering pattern under JavaScript's greedy backtracking semantics (hence
contained in the line, but maximal rather than minimal). -/
theorem C4_secretScan_sound (text filePath : String) (f : SecretFinding)
    (h : f ∈ scanTextForSecrets text filePath) :
    f.filePath = filePath ∧ 1 ≤ f.line ∧
      ∃ line, (splitLinesJS text.data).get? (f.line - 1) = some line ∧
        ∃ pat ∈ secretPatterns, ∃ pre post, line = pre ++ f.matchStr.data ++ post ∧
          reFull pat.2 f.matchStr.data := by
  obtain ⟨hfp, hge, line, hline, pat, hpat, k, m, hm, hms⟩ :=
    scanLinesForSecrets_mem filePath (splitLinesJS text.data) 0 f h
  obtain ⟨pre, post, hdecomp, hfull⟩ := execAll_sound pat.2 line k m hm
  refine ⟨hfp, by omega, line, by simpa using hline, pat, hpat, pre, post, ?_, ?_⟩
  · rw [hms]
    exact hdecomp
  · rw [hms]
    exact hfull

/-- C4, witness: the amended theorem applied to a concrete scan. -/
theorem C4_secretScan_witness :
    (⟨"sk-aaaaaaaaaaaaaaaaaaaa", "f", 1⟩ : SecretFinding).filePath = "f" ∧
      1 ≤ (⟨"sk-aaaaaaaaaaaaaaaaaaaa", "f", 1⟩ : SecretFinding).line ∧
      ∃ line, (splitLinesJS ("sk-aaaaaaaaaaaaaaaaaaaa".data)).get?
          ((⟨"sk-aaaaaaaaaaaaaaaaaaaa", "f", 1⟩ : SecretFinding).line - 1) = some line ∧
        ∃ pat ∈ secretPatterns, ∃ pre post,
          line = pre ++ (⟨"sk-aaaaaaaaaaaaaaaaaaaa", "f", 1⟩ : SecretFinding).matchStr.data ++ post ∧
          reFull pat.2 (⟨"sk-aaaaaaaaaaaaaaaaaaaa", "f", 1⟩ : SecretFinding).matchStr.data :=
  C4_secretScan_sound "sk-aaaaaaaaaaaaaaaaaaaa" "f" ⟨"sk-aaaaaaaaaaaaaaaaaaaa", "f", 1⟩ (by decide)

/-! ### De-duplication key analysis (for claims C5 and C6) -/

theorem append_colon_inj :
    ∀ (a b r₁ r₂ : List Char), (∀ c ∈ a, c ≠ ':') → (∀ c ∈ b, c ≠ ':') →
      a ++ ':' :: r₁ = b ++ ':' :: r₂ → a = b ∧ r₁ = r₂ := by
  intro a
  induction a with
  | nil =>
    intro b r₁ r₂ _ hb h
    cases b with
    | nil => simpa using h
    | cons d b' =>
      exfalso
      simp only [List.nil_append, List.cons_append, List.cons.injEq] at h
      exact hb d (by simp) h.1.symm
  | cons c a' ih =>
    intro b r₁ r₂ ha hb h
    cases b with
    | nil =>
      exfalso
      simp only [List.nil_append, List.cons_append, List.cons.injEq] at h
      exact ha c (by simp) h.1
    | cons d b' =>
      simp only [List.cons_append, List.cons.injEq] at h
      obtain ⟨rfl, h2⟩ := h
      obtain ⟨h3, h4⟩ := ih b' r₁ r₂ (fun x hx => ha x (by simp [hx]))
        (fun x hx => hb x (by simp [hx])) h2
      exact ⟨by rw [h3], h4⟩

theorem allScanLabels_colon_free :
    ∀ lab ∈ blockLabels ++ lineLabels, ∀ c ∈ lab.data, c ≠ ':' := by
  decide

theorem blockLabels_not_lineLabels :
    ∀ lab ∈ blockLabels, lab ∉ lineLabels := by
  decide

theorem hitKey_inj {l₁ l₂ : String} {n₁ n₂ : Nat} {s₁ s₂ : List Char}
    (h₁ : ∀ c ∈ l₁.data, c ≠ ':') (h₂ : ∀ c ∈ l₂.data, c ≠ ':')
    (h : hitKey l₁ n₁ s₁ = hitKey l₂ n₂ s₂) : l₁ = l₂ ∧ n₁ = n₂ := by
  unfold hitKey at h
  obtain ⟨hl, hrest⟩ := append_colon_inj _ _ _ _ h₁ h₂ h
  obtain ⟨hn, -⟩ := append_colon_inj _ _ _ _
    (fun c hc => natToDec_colon_free hc) (fun c hc => natToDec_colon_free hc) hrest
  exact ⟨String.ext hl, natToDec_inj hn⟩

theorem lineKey_fresh {i : Nat} {seen : List (List Char)} (hinv : SeenInv i seen)
    {lab : String} (hlab : lab ∈ lineLabels) (sn : List Char) :
    hitKey lab (i + 1) sn ∉ seen := by
  intro hmem
  obtain ⟨lab', n', sn', hk, hcase⟩ := hinv _ hmem
  have hcf : ∀ c ∈ lab.data, c ≠ ':' :=
    allScanLabels_colon_free lab (List.mem_append.mpr (Or.inr hlab))
  have hcf' : ∀ c ∈ lab'.data, c ≠ ':' := by
    rcases hcase with hbl | ⟨hll, -⟩
    · exact allScanLabels_colon_free lab' (List.mem_append.mpr (Or.inl hbl))
    · exact allScanLabels_colon_free lab' (List.mem_append.mpr (Or.inr hll))
  obtain ⟨hlabEq, hnEq⟩ := hitKey_inj hcf hcf' hk
  rcases hcase with hbl | ⟨-, hle⟩
  · exact blockLabels_not_lineLabels lab' hbl (hlabEq ▸ hlab)
  · omega

theorem SeenInv_mono {i : Nat} {seen : List (List Char)} (h : SeenInv i seen) :
    SeenInv (i + 1) seen := by
  intro k hk
  obtain ⟨lab, n, sn, hkey, hcase⟩ := h k hk
  exact ⟨lab, n, sn, hkey, by
    rcases hcase with h1 | ⟨h1, h2⟩
    · exact Or.inl h1
    · exact Or.inr ⟨h1, by omega⟩⟩

theorem SeenInv_push {i : Nat} {seen : List (List Char)} (h : SeenInv i seen)
    {lab : String} (hlab : lab ∈ lineLabels) (sn : List Char) :
    SeenInv (i + 1) (hitKey lab (i + 1) sn :: seen) := by
  intro k hk
  rcases List.mem_cons.mp hk with h1 | h1
  · exact ⟨lab, i + 1, sn, h1, Or.inr ⟨hlab, by omega⟩⟩
  · exact SeenInv_mono h k h1

theorem pushBlockMatches_eq (filePath : String) (text : List Char) (label : String) :
    ∀ (ms : List (Nat × List Char)) (seen : List (List Char)),
      pushBlockMatches filePath text label ms seen =
        (dedupSeen (ms.map (fun m =>
            (⟨filePath, lineNumberAtIndex text m.1, label, String.mk m.2⟩ :
              PromptKeywordHit))) seen,
         dedupByKey (ms.map (fun m =>
            (⟨filePath, lineNumberAtIndex text m.1, label, String.mk m.2⟩ :
              PromptKeywordHit))) seen) := by
  intro ms
  induction ms with
  | nil => intro seen; rfl
  | cons m rest ih =>
    intro seen
    rw [pushBlockMatches, List.map_cons, dedupSeen, dedupByKey]
    have hkey : hitKeyOf (⟨filePath, lineNumberAtIndex text m.1, label, String.mk m.2⟩ :
        PromptKeywordHit) = hitKey label (lineNumberAtIndex text m.1) m.2 := rfl
    rw [hkey]
    by_cases hmem : hitKey label (lineNumberAtIndex text m.1) m.2 ∈ seen
    · rw [if_pos hmem, if_pos hmem, if_pos hmem, ih seen]
    · rw [if_neg hmem, if_neg hmem, if_neg hmem, ih _]

theorem dedupByKey_append (xs ys : List PromptKeywordHit) (seen : List (List Char)) :
    dedupByKey (xs ++ ys) seen = dedupByKey xs seen ++ dedupByKey ys (dedupSeen xs seen) := by
  induction xs generalizing seen with
  | nil => simp [dedupByKey, dedupSeen]
  | cons h rest ih =>
    rw [List.cons_append, dedupByKey, dedupByKey, dedupSeen]
    by_cases hmem : hitKeyOf h ∈ seen
    · rw [if_pos hmem, if_pos hmem, if_pos hmem, ih seen]
    · rw [if_neg hmem, if_neg hmem, if_neg hmem, ih _, List.cons_append]

theorem dedupSeen_append (xs ys : List PromptKeywordHit) (seen : List (List Char)) :
    dedupSeen (xs ++ ys) seen = dedupSeen ys (dedupSeen xs seen) := by
  induction xs generalizing seen with
  | nil => simp [dedupSeen]
  | cons h rest ih =>
    rw [List.cons_append, dedupSeen, dedupSeen]
    by_cases hmem : hitKeyOf h ∈ seen
    · rw [if_pos hmem, if_pos hmem, ih seen]
    · rw [if_neg hmem, if_neg hmem, ih _]

theorem blockPhase_eq (filePath : String) (text : List Char) :
    ∀ (pats : List (String × (List Char → Nat → Option (Nat × List Char))))
      (seen : List (List Char)),
      blockPhase filePath text pats seen =
        (dedupSeen (pats.flatMap (fun pat =>
            (blockExec text pat.2).map (fun m =>
              (⟨filePath, lineNumberAtIndex text m.1, pat.1, String.mk m.2⟩ :
                PromptKeywordHit)))) seen,
         dedupByKey (pats.flatMap (fun pat =>
            (blockExec text pat.2).map (fun m =>
              (⟨filePath, lineNumberAtIndex text m.1, pat.1, String.mk m.2⟩ :
                PromptKeywordHit)))) seen) := by
  intro pats
  induction pats with
  | nil => intro seen; rfl
  | cons pat pats ih =>
    intro seen
    rw [blockPhase, List.flatMap_cons, pushBlockMatches_eq, ih,
      dedupByKey_append, dedupSeen_append]

theorem dedupSeen_mem {xs : List PromptKeywordHit} :
    ∀ {seen : List (List Char)} {k : List Char}, k ∈ dedupSeen xs seen →
      k ∈ seen ∨ ∃ h ∈ xs, k = hitKeyOf h := by
  induction xs with
  | nil => intro seen k hk; exact Or.inl (by simpa [dedupSeen] using hk)
  | cons h rest ih =>
    intro seen k hk
    rw [dedupSeen] at hk
    by_cases hmem : hitKeyOf h ∈ seen
    · rw [if_pos hmem] at hk
      rcases ih hk with h1 | ⟨h', hh', rfl⟩
      · exact Or.inl h1
      · exact Or.inr ⟨h', by simp [hh'], rfl⟩
    · rw [if_neg hmem] at hk
      rcases ih hk with h1 | ⟨h', hh', rfl⟩
      · rcases List.mem_cons.mp h1 with h2 | h2
        · exact Or.inr ⟨h, by simp, h2⟩
        · exact Or.inl h2
      · exact Or.inr ⟨h', by simp [hh'], rfl⟩

theorem dedupByKey_subset {xs : List PromptKeywordHit} :
    ∀ {seen : List (List Char)} {h : PromptKeywordHit}, h ∈ dedupByKey xs seen → h ∈ xs := by
  induction xs with
  | nil => intro seen h hk; simp [dedupByKey] at hk
  | cons x rest ih =>
    intro seen h hk
    rw [dedupByKey] at hk
    by_cases hmem : hitKeyOf x ∈ seen
    · rw [if_pos hmem] at hk
      exact List.mem_cons.mpr (Or.inr (ih hk))
    · rw [if_neg hmem] at hk
      rcases List.mem_cons.mp hk with h1 | h1
      · exact List.mem_cons.mpr (Or.inl h1)
      · exact List.mem_cons.mpr (Or.inr (ih h1))

theorem blockCandidates_label {filePath : String} {text : List Char}
    {h : PromptKeywordHit} (hh : h ∈ blockCandidates filePath text) :
    h.matchLabel ∈ blockLabels := by
  unfold blockCandidates at hh
  rw [List.mem_flatMap] at hh
  obtain ⟨pat, hpat, hm⟩ := hh
  rw [List.mem_map] at hm
  obtain ⟨m, -, rfl⟩ := hm
  exact List.mem_map_of_mem Prod.fst hpat

theorem SeenInv_blockSeen (filePath : String) (text : List Char) (i : Nat) :
    SeenInv i (dedupSeen (blockCandidates filePath text) []) := by
  intro k hk
  rcases dedupSeen_mem hk with h1 | ⟨h, hh, rfl⟩
  · simp at h1
  · exact ⟨h.matchLabel, h.line, h.snippet.data, rfl,
      Or.inl (blockCandidates_label hh)⟩

theorem keywordMatchers_labels :
    ∀ m ∈ keywordMatchers, m.1 ∈ lineLabels := by
  intro m hm
  exact List.mem_map_of_mem Prod.fst hm

theorem tryMatchers_eq (filePath : String) (i : Nat) (prevL curL nextL : List Char) :
    ∀ (ms : List (String × (List Char → Bool))) (seen : List (List Char)),
      (∀ m ∈ ms, m.1 ∈ lineLabels) → SeenInv i seen →
      tryMatchers filePath i prevL curL nextL ms seen =
        match ms.find? (fun m => m.2 curL) with
        | some m =>
          (hitKey m.1 (i + 1) (lineSnippet prevL curL nextL) :: seen,
           [⟨filePath, i + 1, m.1, String.mk (lineSnippet prevL curL nextL)⟩])
        | none => (seen, []) := by
  intro ms
  induction ms with
  | nil => intro seen _ _; rfl
  | cons m ms ih =>
    intro seen hlabs hinv
    rw [tryMatchers]
    by_cases ht : m.2 curL
    · have hfresh := lineKey_fresh hinv (hlabs m (by simp)) (lineSnippet prevL curL nextL)
      rw [if_pos ht, if_neg hfresh]
      have hfind : List.find? (fun m => m.2 curL) (m :: ms) = some m := by
        rw [List.find?_cons]
        simp [ht]
      rw [hfind]
    · rw [if_neg ht]
      have hfind : List.find? (fun m => m.2 curL) (m :: ms) =
          List.find? (fun m => m.2 curL) ms := by
        rw [List.find?_cons]
        simp [ht]
      rw [hfind]
      exact ih seen (fun x hx => hlabs x (by simp [hx])) hinv

theorem linePhase_eq (filePath : String) :
    ∀ (rest : List (List Char)) (prevL : List Char) (i : Nat) (seen : List (List Char)),
      SeenInv i seen →
      (linePhase filePath prevL rest i seen).2 = lineCandidates filePath prevL rest i := by
  intro rest
  induction rest with
  | nil => intro prevL i seen _; rfl
  | cons curL rest ih =>
    intro prevL i seen hinv
    rw [linePhase, lineCandidates]
    rw [tryMatchers_eq filePath i prevL curL (headOrNil rest) keywordMatchers seen
      keywordMatchers_labels hinv]
    cases hfind : keywordMatchers.find? (fun m => m.2 curL) with
    | some m =>
      simp only
      rw [ih curL (i + 1) _ (SeenInv_push hinv
        (keywordMatchers_labels m (List.mem_of_find?_eq_some hfind)) _)]
    | none =>
      simp only
      rw [ih curL (i + 1) _ (SeenInv_mono hinv)]

theorem dedupByKey_lineCandidates (filePath : String) :
    ∀ (rest : List (List Char)) (prevL : List Char) (i : Nat) (seen : List (List Char)),
      SeenInv i seen →
      dedupByKey (lineCandidates filePath prevL rest i) seen =
        lineCandidates filePath prevL rest i := by
  intro rest
  induction rest with
  | nil => intro prevL i seen _; rfl
  | cons curL rest ih =>
    intro prevL i seen hinv
    rw [lineCandidates]
    cases hfind : keywordMatchers.find? (fun m => m.2 curL) with
    | some m =>
      simp only [List.singleton_append]
      rw [dedupByKey]
      have hlab := keywordMatchers_labels m (List.mem_of_find?_eq_some hfind)
      have hfresh := lineKey_fresh hinv hlab
        (lineSnippet prevL curL (headOrNil rest))
      have hkeyOf : hitKeyOf (⟨filePath, i + 1, m.1,
          String.mk (lineSnippet prevL curL (headOrNil rest))⟩ : PromptKeywordHit) =
          hitKey m.1 (i + 1) (lineSnippet prevL curL (headOrNil rest)) := rfl
      rw [hkeyOf, if_neg hfresh]
      rw [ih curL (i + 1) _ (SeenInv_push hinv hlab _)]
    | none =>
      simp only [List.nil_append]
      rw [ih curL (i + 1) _ (SeenInv_mono hinv)]

/-- C5 (claim theorem follows from this equality): the implementation
equals the spec-side pipeline. -/
theorem scanTextForPromptKeywords_eq_spec (text filePath : String) :
    scanTextForPromptKeywords text filePath = promptScanSpec text filePath := by
  unfold scanTextForPromptKeywords promptScanSpec
  rw [blockPhase_eq]
  have hBlockCands : (blockPatterns.flatMap (fun pat =>
      (blockExec text.data pat.2).map (fun m =>
        (⟨filePath, lineNumberAtIndex text.data m.1, pat.1, String.mk m.2⟩ :
          PromptKeywordHit)))) = blockCandidates filePath text.data := rfl
  rw [hBlockCands]
  rw [dedupByKey_append]
  rw [linePhase_eq filePath _ _ 0 _ (SeenInv_blockSeen filePath text.data 0)]
  rw [dedupByKey_lineCandidates filePath _ _ 0 _ (SeenInv_blockSeen filePath text.data 0)]

theorem headOrNil_eq (l : List (List Char)) : headOrNil l = (l.get? 0).getD [] := by
  cases l <;> rfl

theorem lineCandidates_mem (filePath : String) :
    ∀ (rest : List (List Char)) (prevL : List Char) (i : Nat) (h : PromptKeywordHit),
      h ∈ lineCandidates filePath prevL rest i →
      ∃ j cur, rest.get? j = some cur ∧ h.line = i + j + 1 ∧
        (∃ m, keywordMatchers.find? (fun mm => mm.2 cur) = some m ∧ h.matchLabel = m.1) ∧
        h.snippet.data = lineSnippet
          (if j = 0 then prevL else (rest.get? (j - 1)).getD []) cur
          ((rest.get? (j + 1)).getD []) := by
  intro rest
  induction rest with
  | nil => intro prevL i h hh; simp [lineCandidates] at hh
  | cons curL rest ih =>
    intro prevL i h hh
    rw [lineCandidates] at hh
    rcases List.mem_append.mp hh with h1 | h1
    · cases hfind : keywordMatchers.find? (fun m => m.2 curL) with
      | none => rw [hfind] at h1; simp at h1
      | some m =>
        rw [hfind] at h1
        simp only [List.mem_singleton] at h1
        subst h1
        refine ⟨0, curL, by simp, by simp, ⟨m, hfind, rfl⟩, ?_⟩
        simp only [if_pos rfl]
        rw [headOrNil_eq]
        rfl
    · obtain ⟨j, cur, hget, hline, hm, hsnip⟩ := ih curL (i + 1) h h1
      refine ⟨j + 1, cur, by simpa using hget, by omega, hm, ?_⟩
      rw [hsnip]
      congr 1
      · cases j with
        | zero => simp
        | succ j' => simp

theorem lineCandidates_line_lb (filePath : String) :
    ∀ (rest : List (List Char)) (prevL : List Char) (i : Nat) (h : PromptKeywordHit),
      h ∈ lineCandidates filePath prevL rest i → i + 1 ≤ h.line := by
  intro rest
  induction rest with
  | nil => intro prevL i h hh; simp [lineCandidates] at hh
  | cons curL rest ih =>
    intro prevL i h hh
    rw [lineCandidates] at hh
    rcases List.mem_append.mp hh with h1 | h1
    · cases hfind : keywordMatchers.find? (fun m => m.2 curL) with
      | none => rw [hfind] at h1; simp at h1
      | some m =>
        rw [hfind] at h1
        simp only [List.mem_singleton] at h1
        subst h1
        simp
    · have := ih curL (i + 1) h h1
      omega

theorem lineCandidates_countP (filePath : String) :
    ∀ (rest : List (List Char)) (prevL : List Char) (i : Nat) (n : Nat),
      (lineCandidates filePath prevL rest i).countP (fun h => h.line = n) ≤ 1 := by
  intro rest
  induction rest with
  | nil => intro prevL i n; simp [lineCandidates]
  | cons curL rest ih =>
    intro prevL i n
    rw [lineCandidates, List.countP_append]
    cases hfind : keywordMatchers.find? (fun m => m.2 curL) with
    | none =>
      simp only [List.countP_nil, Nat.zero_add]
      exact ih curL (i + 1) n
    | some m =>
      simp only [List.countP_cons, List.countP_nil, Nat.zero_add]
      by_cases hn : n = i + 1
      · have htail : (lineCandidates filePath curL rest (i + 1)).countP
            (fun h => h.line = n) = 0 := by
          rw [List.countP_eq_zero]
          intro h hh
          have := lineCandidates_line_lb filePath rest curL (i + 1) h hh
          simp only [decide_eq_true_eq]
          omega
        rw [htail]
        split <;> simp
      · have hhead : (decide ((i + 1 : Nat) = n) : Bool) = false := by
          simp
          omega
        simp only [hhead, if_neg]
        simpa using ih curL (i + 1) n

theorem lineCandidates_label (filePath : String) :
    ∀ (rest : List (List Char)) (prevL : List Char) (i : Nat) (h : PromptKeywordHit),
      h ∈ lineCandidates filePath prevL rest i → h.matchLabel ∈ lineLabels := by
  intro rest prevL i h hh
  obtain ⟨j, cur, -, -, ⟨m, hfind, hlab⟩, -⟩ :=
    lineCandidates_mem filePath rest prevL i h hh
  rw [hlab]
  exact keywordMatchers_labels m (List.mem_of_find?_eq_some hfind)

/-! ### Non-whitespace content of matched lines (for claim C8) -/

theorem lowerChar_ws {c : Char} (h : isJsWS c = true) : lowerChar c = c := by
  unfold lowerChar
  rw [if_neg]
  intro hAZ
  rw [Bool.and_eq_true] at hAZ
  have hA' := of_decide_eq_true hAZ.1
  have hZ' := of_decide_eq_true hAZ.2
  unfold isJsWS at h
  simp only [Bool.or_eq_true, Bool.and_eq_true, decide_eq_true_eq, or_assoc] at h
  rcases h with h | h | h | h | h | h | h | h | h | h | h | h | h | h | h <;>
    first
      | (subst h; revert hA' hZ'; decide)
      | (exact absurd (le_trans h.1 hZ') (by decide : ¬ Char.ofNat 0x2000 ≤ 'Z'))

theorem ci_matched_nonws {c p : Char} (hl : lowerChar c = p) (hp : isJsWS p = false) :
    isJsWS c = false := by
  by_cases h : isJsWS c = true
  · rw [lowerChar_ws h] at hl
    rw [hl] at h
    rw [h] at hp
    exact absurd hp (by simp)
  · simpa using h

theorem matchesAtCI_exists_mem {p : Char} {pr s : List Char} {i : Nat}
    (h : matchesAtCI (p :: pr) s i = true) : ∃ c ∈ s, lowerChar c = p := by
  unfold matchesAtCI at h
  rw [decide_eq_true_eq] at h
  cases htake : (s.drop i).take (p :: pr).length with
  | nil => rw [htake] at h; simp at h
  | cons c t =>
    rw [htake] at h
    simp only [List.map_cons, List.cons.injEq] at h
    refine ⟨c, ?_, h.1⟩
    have hct : c ∈ (s.drop i).take (p :: pr).length := by
      rw [htake]
      simp
    exact List.mem_of_mem_drop (List.mem_of_mem_take hct)

theorem existsPos_exists {s : List Char} {f : Nat → Bool} (h : existsPos s f = true) :
    ∃ i, f i = true := by
  unfold existsPos at h
  rw [List.any_eq_true] at h
  obtain ⟨x, -, hx⟩ := h
  exact ⟨x, hx⟩

theorem containsWordCI_nonws {p : Char} {pr s : List Char}
    (h : containsWordCI (p :: pr) s = true) (hp : isJsWS p = false) :
    ∃ c ∈ s, isJsWS c = false := by
  obtain ⟨i, hi⟩ := existsPos_exists h
  simp only [Bool.and_eq_true] at hi
  obtain ⟨c, hc, hl⟩ := matchesAtCI_exists_mem hi.1.2
  exact ⟨c, hc, ci_matched_nonws hl hp⟩

theorem containsCI_nonws {p : Char} {pr s : List Char}
    (h : containsCI (p :: pr) s = true) (hp : isJsWS p = false) :
    ∃ c ∈ s, isJsWS c = false := by
  obtain ⟨i, hi⟩ := existsPos_exists h
  obtain ⟨c, hc, hl⟩ := matchesAtCI_exists_mem hi
  exact ⟨c, hc, ci_matched_nonws hl hp⟩

theorem keywordMatcher_nonws :
    ∀ m ∈ keywordMatchers, ∀ line : List Char, m.2 line = true →
      ∃ c ∈ line, isJsWS c = false := by
  intro m hm line ht
  simp only [keywordMatchers, List.mem_cons, List.mem_singleton] at hm
  rcases hm with rfl | rfl | rfl | rfl | rfl | rfl | rfl | hm
  · unfold testRoleSystem at ht
    rw [Bool.and_eq_true] at ht
    exact containsWordCI_nonws ht.1 (by decide)
  · unfold testSystemPromptIdent at ht
    obtain ⟨i, hi⟩ := existsPos_exists ht
    simp only [Bool.and_eq_true] at hi
    obtain ⟨c, hc, hl⟩ := matchesAtCI_exists_mem hi.1.2
    exact ⟨c, hc, ci_matched_nonws hl (by decide)⟩
  · unfold testSystemMessageIdent at ht
    obtain ⟨i, hi⟩ := existsPos_exists ht
    rw [Bool.or_eq_true] at hi
    rcases hi with hi | hi <;> simp only [Bool.and_eq_true] at hi
    · obtain ⟨c, hc, hl⟩ := matchesAtCI_exists_mem hi.1.1.2
      exact ⟨c, hc, ci_matched_nonws hl (by decide)⟩
    · obtain ⟨c, hc, hl⟩ := matchesAtCI_exists_mem hi.1.2
      exact ⟨c, hc, ci_matched_nonws hl (by decide)⟩
  · unfold testMessagesRoleSystem at ht
    simp only [Bool.and_eq_true] at ht
    exact containsWordCI_nonws ht.1.2 (by decide)
  · unfold testYouAre at ht
    rw [Bool.and_eq_true] at ht
    obtain ⟨i, hi⟩ := existsPos_exists ht.1
    simp only [Bool.and_eq_true] at hi
    obtain ⟨c, hc, hl⟩ := matchesAtCI_exists_mem hi.1.2
    exact ⟨c, hc, ci_matched_nonws hl (by decide)⟩
  · unfold testPromptSystem at ht
    rw [Bool.and_eq_true] at ht
    exact containsWordCI_nonws ht.1 (by decide)
  · unfold testCommonVariants at ht
    simp only [Bool.or_eq_true] at ht
    rcases ht with ((ht | ht) | ht) | ht
    · exact containsCI_nonws ht (by decide)
    · exact containsCI_nonws ht (by decide)
    · exact containsCI_nonws ht (by decide)
    · exact containsCI_nonws ht (by decide)
  · simp at hm

theorem keywordMatchers_nil_false : ∀ m ∈ keywordMatchers, m.2 [] = false := by
  decide

/-- C5: `scanTextForPromptKeywords` suppresses a hit exactly when an
identical `(label, line, first-50-characters-of-snippet)` key was already
emitted for the same text, and block-extractor hits are computed before
the line-heuristic hits: the implementation equals the spec-side pipeline
that lists all block candidates first, then the per-line first-matching
predicate candidates, and keeps the first occurrence of each key. -/
theorem C5_promptScan_dedup (text filePath : String) :
    scanTextForPromptKeywords text filePath = promptScanSpec text filePath :=
  scanTextForPromptKeywords_eq_spec text filePath

theorem blockCandidates_line_pos {filePath : String} {text : List Char}
    {h : PromptKeywordHit} (hh : h ∈ blockCandidates filePath text) : 1 ≤ h.line := by
  unfold blockCandidates at hh
  rw [List.mem_flatMap] at hh
  obtain ⟨pat, -, hm⟩ := hh
  rw [List.mem_map] at hm
  obtain ⟨m, -, rfl⟩ := hm
  simp [lineNumberAtIndex]

theorem scanPrompt_mem_cases {text filePath : String} {h : PromptKeywordHit}
    (hh : h ∈ scanTextForPromptKeywords text filePath) :
    h ∈ blockCandidates filePath text.data ∨
      h ∈ lineCandidates filePath [] (splitLinesJS text.data) 0 := by
  rw [scanTextForPromptKeywords_eq_spec] at hh
  unfold promptScanSpec at hh
  have := dedupByKey_subset hh
  exact List.mem_append.mp this

/-- Lexical half of claim C8: every hit has a line number at least 1, and
every line-heuristic hit has a non-empty snippet. (Block-extractor hits
carry the captured block content verbatim, which can be empty — see the
C8 counterexample.) -/
theorem scanPrompt_hit_invariant (text filePath : String) :
    ∀ h ∈ scanTextForPromptKeywords text filePath,
      1 ≤ h.line ∧ (h.matchLabel ∈ lineLabels → h.snippet ≠ "") := by
  intro h hh
  rcases scanPrompt_mem_cases hh with hb | hl
  · refine ⟨blockCandidates_line_pos hb, ?_⟩
    intro hlab
    exact absurd hlab (blockLabels_not_lineLabels _ (blockCandidates_label hb))
  · obtain ⟨j, cur, hget, hline, ⟨m, hfind, hmlab⟩, hsnip⟩ :=
      lineCandidates_mem filePath _ [] 0 h hl
    refine ⟨by omega, ?_⟩
    intro _
    have htest : m.2 cur = true := by
      have := List.find?_some hfind
      simpa using this
    have hcurne : cur ≠ [] := by
      intro hnil
      rw [hnil] at htest
      rw [keywordMatchers_nil_false m (List.mem_of_find?_eq_some hfind)] at htest
      exact absurd htest (by simp)
    obtain ⟨c, hc, hcws⟩ :=
      keywordMatcher_nonws m (List.mem_of_find?_eq_some hfind) cur htest
    intro hempty
    have hdata : h.snippet.data = [] := by rw [hempty]
    rw [hsnip] at hdata
    unfold lineSnippet at hdata
    rw [snippet_elision _ _ _ hcurne] at hdata
    have hcmem : c ∈ joinNlSep [(if j = 0 then ([] : List Char)
        else ((splitLinesJS text.data).get? (j - 1)).getD []), cur,
        (((splitLinesJS text.data).get? (j + 1)).getD [])] := by
      show c ∈ _ ++ ' ' :: '\n' :: ' ' :: (cur ++ ' ' :: '\n' :: ' ' :: _)
      simp [hc]
    exact normalizeWhitespace_ne_nil _ hcmem (by simp [hcws]) hdata

theorem length_filter_mono {A : Type} (p q : A → Bool)
    (himp : ∀ a, p a = true → q a = true) :
    ∀ l : List A, (l.filter p).length ≤ (l.filter q).length := by
  intro l
  induction l with
  | nil => simp
  | cons a rest ih =>
    rw [List.filter_cons, List.filter_cons]
    by_cases hp : p a = true
    · rw [if_pos hp, if_pos (himp a hp)]
      simpa using ih
    · rw [if_neg hp]
      split
      · exact Nat.le_trans ih (by simp)
      · exact ih

/-- C6: for every line of the input, the line heuristics emit at most one
hit; the first predicate in declaration order that matches the line wins,
and that hit's snippet is the previous line, the matching line and the
next line joined and whitespace-normalized. -/
theorem C6_lineHeuristics (text filePath : String) :
    (∀ h ∈ scanTextForPromptKeywords text filePath, h.matchLabel ∈ lineLabels →
      ∃ i cur, (splitLinesJS text.data).get? i = some cur ∧ h.line = i + 1 ∧
        (∃ m, keywordMatchers.find? (fun mm => mm.2 cur) = some m ∧ h.matchLabel = m.1) ∧
        h.snippet.data = normalizeWhitespace (joinNlSep
          [(if i = 0 then [] else ((splitLinesJS text.data).get? (i - 1)).getD []), cur,
            ((splitLinesJS text.data).get? (i + 1)).getD []])) ∧
    (∀ n : Nat, ((scanTextForPromptKeywords text filePath).filter
        (fun h => decide (h.matchLabel ∈ lineLabels) && decide (h.line = n))).length ≤ 1) := by
  constructor
  · intro h hh hlab
    rcases scanPrompt_mem_cases hh with hb | hl
    · exact absurd hlab (blockLabels_not_lineLabels _ (blockCandidates_label hb))
    · obtain ⟨j, cur, hget, hline, ⟨m, hfind, hmlab⟩, hsnip⟩ :=
        lineCandidates_mem filePath _ [] 0 h hl
      have htest : m.2 cur = true := by
        have := List.find?_some hfind
        simpa using this
      have hcurne : cur ≠ [] := by
        intro hnil
        rw [hnil] at htest
        rw [keywordMatchers_nil_false m (List.mem_of_find?_eq_some hfind)] at htest
        exact absurd htest (by simp)
      refine ⟨j, cur, hget, by omega, ⟨m, hfind, hmlab⟩, ?_⟩
      rw [hsnip]
      unfold lineSnippet
      rw [snippet_elision _ _ _ hcurne]
  · intro n
    rw [scanTextForPromptKeywords_eq_spec]
    unfold promptScanSpec
    rw [dedupByKey_append]
    rw [dedupByKey_lineCandidates filePath _ _ 0 _ (SeenInv_blockSeen filePath text.data 0)]
    rw [List.filter_append, List.length_append]
    have hblock : (dedupByKey (blockCandidates filePath text.data) []).filter
        (fun h => decide (h.matchLabel ∈ lineLabels) && decide (h.line = n)) = [] := by
      rw [List.filter_eq_nil_iff]
      intro h hh
      have hbl := blockCandidates_label (dedupByKey_subset hh)
      simp only [Bool.and_eq_true, decide_eq_true_eq]
      intro hcontra
      exact absurd hcontra.1 (blockLabels_not_lineLabels _ hbl)
    rw [hblock]
    simp only [List.length_nil, Nat.zero_add]
    have hsub : ((lineCandidates filePath [] (splitLinesJS text.data) 0).filter
        (fun h => decide (h.matchLabel ∈ lineLabels) && decide (h.line = n))).length ≤
        ((lineCandidates filePath [] (splitLinesJS text.data) 0).filter
          (fun h => decide (h.line = n))).length := by
      apply length_filter_mono
      intro h hcond
      rw [Bool.and_eq_true] at hcond
      exact hcond.2
    refine Nat.le_trans hsub ?_
    rw [← List.countP_eq_length_filter]
    exact lineCandidates_countP filePath _ [] 0 n

/-! ## Claim C7 (structural role inference) -/

/-- C7, counterexample: the claim says every string-valued keyword
argument of a recognized call is recorded as an artifact, but the Python
truthiness check `if text:` drops a keyword whose string value is empty:
a recognized call with `system=""` yields no artifact at all. -/
theorem C7_counterexample :
    visitCall "a.py" ["fn"]
      ⟨.attributeE (.attributeE (.attributeE (.name "client") "chat") "completions") "create",
       [], [⟨some "system", .strConst ""⟩], 3⟩ = [] ∧
    isLLMCall (calleeSegments
      (.attributeE (.attributeE (.attributeE (.name "client") "chat") "completions")
        "create")) = true := by
  exact ⟨by decide, by decide⟩

/-- C7 (amended): for a recognized LLM call, a keyword argument whose
extracted string literal is non-empty is recorded as an artifact whose
role is inferred from the keyword name by the stated table
(`system`/`system_prompt` ↦ `system`, `user`/`prompt`/`input` ↦ `user`,
`tool`/`tools_prompt` ↦ `tool`, anything else ↦ `unknown`); in particular
`system="S", user="U"` with non-empty `S`, `U` yields exactly the two
artifacts `(system, S)` and `(user, U)`, each carrying the enclosing
function name and the dotted call signature. -/
theorem C7_roleInference (fp : String) (stack : List String) (f : PyExpr) (lineno : Nat)
    (hrec : isLLMCall (calleeSegments f) = true) :
    (∀ (k s : String), s ≠ "" →
      visitCall fp stack ⟨f, [], [⟨some k, .strConst s⟩], lineno⟩ =
        [⟨inferRoleFromKw k, s, fp, lineno, stack.head?,
          String.intercalate "." (calleeSegments f)⟩]) ∧
    inferRoleFromKw "system" = "system" ∧ inferRoleFromKw "system_prompt" = "system" ∧
    inferRoleFromKw "user" = "user" ∧ inferRoleFromKw "prompt" = "user" ∧
    inferRoleFromKw "input" = "user" ∧ inferRoleFromKw "tool" = "tool" ∧
    inferRoleFromKw "tools_prompt" = "tool" ∧
    (∀ k : String,
      k ∉ ["system", "system_prompt", "user", "prompt", "input", "tool", "tools_prompt"] →
      inferRoleFromKw k = "unknown") ∧
    (∀ S U : String, S ≠ "" → U ≠ "" →
      visitCall fp stack ⟨f, [], [⟨some "system", .strConst S⟩,
          ⟨some "user", .strConst U⟩], lineno⟩ =
        [⟨"system", S, fp, lineno, stack.head?,
          String.intercalate "." (calleeSegments f)⟩,
         ⟨"user", U, fp, lineno, stack.head?,
          String.intercalate "." (calleeSegments f)⟩]) := by
  refine ⟨?_, rfl, rfl, rfl, rfl, rfl, rfl, rfl, ?_, ?_⟩
  · intro k s hs
    unfold visitCall
    rw [if_pos hrec]
    simp [extractString, hs]
  · intro k hk
    unfold inferRoleFromKw
    simp only [List.mem_cons, List.mem_singleton, not_or] at hk
    obtain ⟨h1, h2, h3, h4, h5, h6, h7, -⟩ := hk
    rw [if_neg (by simp [h1, h2]), if_neg (by simp [h3, h4, h5]),
      if_neg (by simp [h6, h7])]
  · intro S U hS hU
    unfold visitCall
    rw [if_pos hrec]
    simp [extractString, hS, hU, inferRoleFromKw]

/-- C7, witness: the amended theorem applied to the call shape
`client.chat.completions.create` inside function `fn`. -/
theorem C7_roleInference_witness :
    (∀ (k s : String), s ≠ "" →
      visitCall "a.py" ["fn"]
        ⟨.attributeE (.attributeE (.attributeE (.name "client") "chat") "completions")
          "create", [], [⟨some k, .strConst s⟩], 3⟩ =
        [⟨inferRoleFromKw k, s, "a.py", 3, (["fn"] : List String).head?,
          String.intercalate "." (calleeSegments
            (.attributeE (.attributeE (.attributeE (.name "client") "chat") "completions")
              "create"))⟩]) ∧
    inferRoleFromKw "system" = "system" ∧ inferRoleFromKw "system_prompt" = "system" ∧
    inferRoleFromKw "user" = "user" ∧ inferRoleFromKw "prompt" = "user" ∧
    inferRoleFromKw "input" = "user" ∧ inferRoleFromKw "tool" = "tool" ∧
    inferRoleFromKw "tools_prompt" = "tool" ∧
    (∀ k : String,
      k ∉ ["system", "system_prompt", "user", "prompt", "input", "tool", "tools_prompt"] →
      inferRoleFromKw k = "unknown") ∧
    (∀ S U : String, S ≠ "" → U ≠ "" →
      visitCall "a.py" ["fn"]
        ⟨.attributeE (.attributeE (.attributeE (.name "client") "chat") "completions")
          "create", [], [⟨some "system", .strConst S⟩, ⟨some "user", .strConst U⟩], 3⟩ =
        [⟨"system", S, "a.py", 3, (["fn"] : List String).head?,
          String.intercalate "." (calleeSegments
            (.attributeE (.attributeE (.attributeE (.name "client") "chat") "completions")
              "create"))⟩,
         ⟨"user", U, "a.py", 3, (["fn"] : List String).head?,
          String.intercalate "." (calleeSegments
            (.attributeE (.attributeE (.attributeE (.name "client") "chat") "completions")
              "create"))⟩]) :=
  C7_roleInference "a.py" ["fn"]
    (.attributeE (.attributeE (.attributeE (.name "client") "chat") "completions") "create")
    3 (by decide)

/-! ## Claim C8 (artifact invariants) -/

/-- C8, counterexample: the claim says every hit returned by
`scanTextForPromptKeywords` has a non-empty snippet, but a block-extractor
hit carries the captured template content verbatim, which is empty for an
empty template literal: on `"system: ``"` the scanner returns exactly one
hit whose snippet is the empty string. -/
theorem C8_counterexample :
    scanTextForPromptKeywords ("system: " ++ String.mk [backtickChar, backtickChar]) "f" =
      [⟨"f", 1, "js_ts_system_template_literal", ""⟩] := by
  decide

theorem dictArtifact_text_ne {fp : String} {lineno : Nat} {fn : Option String}
    {sig : String} {entries : List (PyExpr × PyExpr)} {a : PythonPrompt}
    (ha : a ∈ dictArtifact fp lineno fn sig entries) :
    a.text ≠ "" ∧ a.line = lineno := by
  unfold dictArtifact at ha
  split at ha
  · split at ha
    · split at ha
      · rw [List.mem_singleton] at ha
        subst ha
        rename_i t hscan hne
        exact ⟨hne, rfl⟩
      · simp at ha
    · simp at ha
  · simp at ha

/-- C8 (amended): every line-heuristic hit has a non-empty snippet and
every hit a 1-based line number, but a block-extractor hit's snippet is
the captured block content verbatim and may be empty; every structural
artifact has non-empty text and inherits the call's 1-based line. -/
theorem C8_artifact_invariant :
    (∀ text filePath : String, ∀ h ∈ scanTextForPromptKeywords text filePath,
      1 ≤ h.line ∧ (h.matchLabel ∈ lineLabels → h.snippet ≠ "")) ∧
    (∀ (fp : String) (stack : List String) (c : PyCall), 1 ≤ c.lineno →
      ∀ a ∈ visitCall fp stack c, a.text ≠ "" ∧ 1 ≤ a.line) := by
  constructor
  · intro text filePath h hh
    exact scanPrompt_hit_invariant text filePath h hh
  · intro fp stack c hln a ha
    unfold visitCall at ha
    split at ha
    · rcases List.mem_append.mp ha with h1 | h1
      · rw [List.mem_flatMap] at h1
        obtain ⟨kw, -, hkw⟩ := h1
        split at hkw
        · split at hkw
          · rw [List.mem_singleton] at hkw
            subst hkw
            rename_i t hex hne
            exact ⟨hne, hln⟩
          · simp at hkw
        · simp at hkw
      · rw [List.mem_flatMap] at h1
        obtain ⟨arg, -, harg⟩ := h1
        cases arg with
        | dict entries =>
          obtain ⟨hne, hl⟩ := dictArtifact_text_ne harg
          exact ⟨hne, by omega⟩
        | listE elts =>
          rw [List.mem_flatMap] at harg
          obtain ⟨e, -, he⟩ := harg
          cases e with
          | dict entries =>
            obtain ⟨hne, hl⟩ := dictArtifact_text_ne he
            exact ⟨hne, by omega⟩
          | strConst s => simp at he
          | otherConst => simp at he
          | joinedStr parts => simp at he
          | name i => simp at he
          | attributeE v a2 => simp at he
          | listE elts2 => simp at he
          | otherExpr => simp at he
        | strConst s => simp at harg
        | otherConst => simp at harg
        | joinedStr parts => simp at harg
        | name i => simp at harg
        | attributeE v a2 => simp at harg
        | otherExpr => simp at harg
    · simp at ha

/-! ## Claim C2: the walker budgets -/

mutual
theorem listWalkEntry_le (maxFiles : Nat) (e : FSEntry) (dirPath : String)
    (out : List String) (h : out.length < maxFiles) :
    (listWalkEntry maxFiles e dirPath out).length ≤ maxFiles :=
  match e with
  | .dir n children =>
    listWalkList_le maxFiles children (joinPath dirPath n) out (Nat.le_of_lt h)
  | .file n => by
    simp only [listWalkEntry, List.length_append, List.length_cons,
      List.length_nil]
    omega

theorem listWalkList_le (maxFiles : Nat) (es : List FSEntry) (dirPath : String)
    (out : List String) (h : out.length ≤ maxFiles) :
    (listWalkList maxFiles es dirPath out).length ≤ maxFiles :=
  match es with
  | [] => by simpa only [listWalkList] using h
  | e :: es => by
    rw [listWalkList]
    split
    · exact h
    · split
      · exact listWalkList_le maxFiles es dirPath out h
      · refine listWalkList_le maxFiles es dirPath _ ?_
        exact listWalkEntry_le maxFiles e dirPath out (by omega)
end

theorem buildWalkListF_stuck (maxDepth maxNodes fuel : Nat) (es : List FSEntry)
    (dirPath : String) (depth count : Nat) (h : maxNodes ≤ count) :
    buildWalkListF maxDepth maxNodes fuel es dirPath depth count = ([], count) := by
  cases fuel with
  | zero => rfl
  | succ fuel =>
    cases es with
    | nil => rfl
    | cons e es =>
      simp only [buildWalkListF]
      rw [if_pos h]

theorem buildWalkF_count (maxDepth maxNodes : Nat) : ∀ fuel : Nat,
    (∀ name entries dirPath depth count,
      (buildWalkDirF maxDepth maxNodes fuel name entries dirPath depth count).2 + 1 =
        count + treeNodes
          (buildWalkDirF maxDepth maxNodes fuel name entries dirPath depth count).1) ∧
    (∀ es dirPath depth count,
      (buildWalkListF maxDepth maxNodes fuel es dirPath depth count).2 =
        count + treeNodesList
          (buildWalkListF maxDepth maxNodes fuel es dirPath depth count).1) := by
  intro fuel
  induction fuel with
  | zero =>
    constructor
    · intro name entries dirPath depth count
      simp [buildWalkDirF, treeNodes, treeNodesList]
    · intro es dirPath depth count
      simp [buildWalkListF, treeNodesList]
  | succ fuel ih =>
    obtain ⟨ihD, ihL⟩ := ih
    constructor
    · intro name entries dirPath depth count
      simp only [buildWalkDirF]
      split
      · simp [treeNodes, treeNodesList]
      · cases hL : buildWalkListF maxDepth maxNodes fuel (sortEntries entries)
            dirPath depth count with
        | mk children c =>
          have h1 := ihL (sortEntries entries) dirPath depth count
          rw [hL] at h1
          simp only [treeNodes] at h1 ⊢
          omega
    · intro es dirPath depth count
      cases es with
      | nil => simp [buildWalkListF, treeNodesList]
      | cons e es =>
        simp only [buildWalkListF]
        split
        · simp [treeNodesList]
        · split
          · exact ihL es dirPath depth count
          · split
            · exact ihL es dirPath depth count
            · cases e with
              | dir n children =>
                simp only []
                cases hD : buildWalkDirF maxDepth maxNodes fuel n children
                    (joinPath dirPath n) (depth + 1) count with
                | mk node c =>
                  cases hR : buildWalkListF maxDepth maxNodes fuel es dirPath
                      depth (c + 1) with
                  | mk rest cF =>
                    have h1 := ihD n children (joinPath dirPath n) (depth + 1) count
                    have h2 := ihL es dirPath depth (c + 1)
                    rw [hD] at h1
                    rw [hR] at h2
                    simp only [treeNodesList] at h1 h2 ⊢
                    omega
              | file n =>
                simp only []
                cases hR : buildWalkListF maxDepth maxNodes fuel es dirPath
                    depth (count + 1) with
                | mk rest cF =>
                  have h2 := ihL es dirPath depth (count + 1)
                  rw [hR] at h2
                  simp only [treeNodesList, treeNodes] at h2 ⊢
                  omega

theorem buildWalkF_bound (maxDepth maxNodes : Nat) : ∀ fuel : Nat,
    (∀ name entries dirPath depth count, count < maxNodes →
      (buildWalkDirF maxDepth maxNodes fuel name entries dirPath depth count).2 + 1 ≤
        maxNodes + (maxDepth + 1 - depth)) ∧
    (∀ es dirPath depth count, depth ≤ maxDepth → count ≤ maxNodes →
      (buildWalkListF maxDepth maxNodes fuel es dirPath depth count).2 ≤
        maxNodes + (maxDepth - depth)) := by
  intro fuel
  induction fuel with
  | zero =>
    constructor
    · intro name entries dirPath depth count h
      simp only [buildWalkDirF]
      omega
    · intro es dirPath depth count hd hc
      simp only [buildWalkListF]
      omega
  | succ fuel ih =>
    obtain ⟨ihD, ihL⟩ := ih
    constructor
    · intro name entries dirPath depth count h
      simp only [buildWalkDirF]
      split
      · simp only []
        omega
      · rename_i hg
        rw [Bool.or_eq_true, decide_eq_true_eq, decide_eq_true_eq] at hg
        push_neg at hg
        cases hL : buildWalkListF maxDepth maxNodes fuel (sortEntries entries)
            dirPath depth count with
        | mk children c =>
          have h1 := ihL (sortEntries entries) dirPath depth count
            (by omega) (Nat.le_of_lt h)
          rw [hL] at h1
          simp only [] at h1 ⊢
          omega
    · intro es dirPath depth count hd hc
      cases es with
      | nil =>
        simp only [buildWalkListF]
        omega
      | cons e es =>
        simp only [buildWalkListF]
        split
        · simp only []
          omega
        · rename_i hng
          split
          · exact ihL es dirPath depth count hd hc
          · split
            · exact ihL es dirPath depth count hd hc
            · have hcn : count < maxNodes := by omega
              cases e with
              | dir n children =>
                simp only []
                cases hD : buildWalkDirF maxDepth maxNodes fuel n children
                    (joinPath dirPath n) (depth + 1) count with
                | mk node c =>
                  have h1 := ihD n children (joinPath dirPath n) (depth + 1)
                    count hcn
                  rw [hD] at h1
                  by_cases hc2 : c + 1 ≤ maxNodes
                  · have h2 := ihL es dirPath depth (c + 1) hd hc2
                    cases hR : buildWalkListF maxDepth maxNodes fuel es dirPath
                        depth (c + 1) with
                    | mk rest cF =>
                      rw [hR] at h2
                      simp only [] at h1 h2 ⊢
                      omega
                  · have hst := buildWalkListF_stuck maxDepth maxNodes fuel es
                      dirPath depth (c + 1) (by omega)
                    rw [hst]
                    simp only [] at h1 ⊢
                    omega
              | file n =>
                simp only []
                have h2 := ihL es dirPath depth (count + 1) hd (by omega)
                cases hR : buildWalkListF maxDepth maxNodes fuel es dirPath
                    depth (count + 1) with
                | mk rest cF =>
                  rw [hR] at h2
                  simp only [] at h2 ⊢
                  omega

theorem buildWalkDirF_nonRoot (maxDepth maxNodes fuel : Nat) (name : String)
    (entries : List FSEntry) (dirPath : String) (depth count : Nat) :
    nonRootNodes
        (buildWalkDirF maxDepth maxNodes fuel name entries dirPath depth count).1 + 1 =
      treeNodes
        (buildWalkDirF maxDepth maxNodes fuel name entries dirPath depth count).1 := by
  cases fuel with
  | zero =>
    simp [buildWalkDirF, nonRootNodes, treeNodes]
    omega
  | succ fuel =>
    simp only [buildWalkDirF]
    split
    · simp [nonRootNodes, treeNodes]
      omega
    · cases hL : buildWalkListF maxDepth maxNodes fuel (sortEntries entries)
          dirPath depth count with
      | mk children c =>
        simp [nonRootNodes, treeNodes]
        omega

/-- C2 (amended): the flat file list of listAllFiles never exceeds its
maxFiles budget, but the tree of buildFileTree can exceed its maxNodes
budget by up to one node per level of recursion, because nodeCount is
incremented for a directory child only after the recursion into it has
completed; the provable bound on non-root nodes is maxNodes + maxDepth,
not maxNodes. -/
theorem C2_budgets :
    (∀ (root : String) (entries : List FSEntry) (maxFiles : Nat),
        (listAllFiles root entries maxFiles).length ≤ maxFiles) ∧
    (∀ (rootName root : String) (entries : List FSEntry) (maxDepth maxNodes : Nat),
        nonRootNodes (buildFileTree rootName root entries maxDepth maxNodes) ≤
          maxNodes + maxDepth) := by
  constructor
  · intro root entries maxFiles
    exact listWalkList_le maxFiles entries root [] (by simp)

  · intro rootName root entries maxDepth maxNodes
    by_cases h0 : maxNodes = 0
    · subst h0
      unfold buildFileTree
      obtain ⟨f, hf⟩ : ∃ f, 2 * fsSizeList entries + 2 = f + 1 :=
        ⟨2 * fsSizeList entries + 1, rfl⟩
      rw [hf]
      simp only [buildWalkDirF]
      rw [if_pos (by simp)]
      simp [nonRootNodes, treeNodesList]
    · have h1 : 0 < maxNodes := Nat.pos_of_ne_zero h0
      unfold buildFileTree
      have hc := (buildWalkF_count maxDepth maxNodes
        (2 * fsSizeList entries + 2)).1 rootName entries root 1 0
      have hb := (buildWalkF_bound maxDepth maxNodes
        (2 * fsSizeList entries + 2)).1 rootName entries root 1 0 h1
      have hs := buildWalkDirF_nonRoot maxDepth maxNodes
        (2 * fsSizeList entries + 2) rootName entries root 1 0
      omega

/-- A target with a single directory holding two files exceeds a
maxNodes budget of 1: the built tree has two non-root nodes. -/
theorem C2_counterexample :
    nonRootNodes (buildFileTree "r" "/r" [.dir "a" [.file "x", .file "y"]] 8 1) = 2 ∧
      ¬ nonRootNodes
          (buildFileTree "r" "/r" [.dir "a" [.file "x", .file "y"]] 8 1) ≤ 1 := by
  decide

theorem scanLoop_secret_bound : ∀ (files : List FileEntry)
    (s : List SecretFinding) (p : List PromptKeywordHit),
    s.length ≤ 200 → (scanLoop files s p).1.length ≤ 205 := by
  intro files
  induction files with
  | nil =>
    intro s p hs
    simp only [scanLoop]
    omega
  | cons f fs ih =>
    intro s p hs
    simp only [scanLoop]
    split
    · exact ih s p hs
    · split
      · exact ih s p hs
      · split
        · rename_i hbr
          have ht : ((scanTextForSecrets f.content f.path).take 5).length ≤ 5 := by
            simp
          simp only [List.length_append]
          omega
        · rename_i hbr
          refine ih _ _ ?_
          simp only [List.length_append] at hbr ⊢
          omega

theorem scanLoop_perFile : ∀ (files : List FileEntry)
    (s : List SecretFinding) (p : List PromptKeywordHit),
    (scanLoop files s p).1.length ≤ s.length + 5 * files.length ∧
      (scanLoop files s p).2.length ≤ p.length + 10 * files.length := by
  intro files
  induction files with
  | nil =>
    intro s p
    constructor <;> simp [scanLoop]
  | cons f fs ih =>
    intro s p
    have h5 : ((scanTextForSecrets f.content f.path).take 5).length ≤ 5 := by
      simp
    have h10 : ((scanTextForPromptKeywords f.content f.path).take 10).length ≤ 10 := by
      simp
    simp only [scanLoop]
    constructor
    · split
      · have := (ih s p).1
        simp only [List.length_cons]
        omega
      · split
        · have := (ih s p).1
          simp only [List.length_cons]
          omega
        · split
          · simp only [List.length_append, List.length_cons]
            omega
          · have := (ih (s ++ (scanTextForSecrets f.content f.path).take 5)
              (p ++ (scanTextForPromptKeywords f.content f.path).take 10)).1
            simp only [List.length_append, List.length_cons] at this ⊢
            omega
    · split
      · have := (ih s p).2
        simp only [List.length_cons]
        omega
      · split
        · have := (ih s p).2
          simp only [List.length_cons]
          omega
        · split
          · simp only [List.length_append, List.length_cons]
            omega
          · have := (ih (s ++ (scanTextForSecrets f.content f.path).take 5)
              (p ++ (scanTextForPromptKeywords f.content f.path).take 10)).2
            simp only [List.length_append, List.length_cons] at this ⊢
            omega

set_option maxRecDepth 100000 in
/-- C10: each scanned file contributes at most 5 secret findings and at
most 10 lexical hits to the aggregated result; the aggregated secrets
list never exceeds 205 entries; and a total above 200 is reachable,
because the overall cap is checked only after a file's findings were
appended: 41 files with five tokens each aggregate to exactly 205
findings. -/
theorem C10_aggregationCaps :
    (∀ (files : List FileEntry), (scanLoop files [] []).1.length ≤ 205) ∧
    (∀ (files : List FileEntry) (s : List SecretFinding)
        (p : List PromptKeywordHit),
      (scanLoop files s p).1.length ≤ s.length + 5 * files.length ∧
        (scanLoop files s p).2.length ≤ p.length + 10 * files.length) ∧
    (scanLoop (List.replicate 41 fiveTokenFile) [] []).1.length = 205 := by
  refine ⟨fun files => scanLoop_secret_bound files [] [] (by simp), scanLoop_perFile, ?_⟩
  decide

/-- A failing process (exit code 1) makes extractPythonPrompts reject
with an error — it does not resolve with an empty list. -/
theorem C3_counterexample :
    extractPromptsOutcome ⟨1, "", "boom"⟩ (fun _ => .ok []) =
        .error "Extractor failed: boom" ∧
      ∀ ps : List PythonPrompt,
        extractPromptsOutcome ⟨1, "", "boom"⟩ (fun _ => .ok []) ≠ .ok ps := by
  constructor
  · rfl
  · intro ps h
    simp [extractPromptsOutcome] at h

/-- C3 (amended): extractPythonPrompts itself does not degrade to empty
— it rejects (raises) whenever the extractor process exits non-zero, and
propagates any JSON parse error; the degrade-to-empty behaviour lives in
the caller: POST catches the rejection, so the scan run's
structural-artifact list is [] with no thrown error on any extractor
failure. -/
theorem C3_extractorDegrade :
    (∀ (proc : ProcOutcome)
        (jsonParse : String → Except String (List PythonPrompt)),
      proc.exitCode ≠ 0 →
        extractPromptsOutcome proc jsonParse =
          .error ("Extractor failed: " ++ proc.stderr)) ∧
    (∀ (proc : ProcOutcome)
        (jsonParse : String → Except String (List PythonPrompt)),
      proc.exitCode = 0 →
        extractPromptsOutcome proc jsonParse = jsonParse proc.stdout) ∧
    (∀ (proc : ProcOutcome)
        (jsonParse : String → Except String (List PythonPrompt)) (msg : String),
      extractPromptsOutcome proc jsonParse = .error msg →
        postExtractStage proc jsonParse = []) := by
  refine ⟨?_, ?_, ?_⟩
  · intro proc jsonParse h
    simp [extractPromptsOutcome, h]
  · intro proc jsonParse h
    simp [extractPromptsOutcome, h]
  · intro proc jsonParse msg h
    simp [postExtractStage, h]

/-- The three parts of C3_extractorDegrade at a failing process, a
succeeding process, and the caught rejection. -/
theorem C3_extractorDegrade_witness :
    extractPromptsOutcome ⟨2, "", "e"⟩ (fun _ => .ok []) =
        .error "Extractor failed: e" ∧
      extractPromptsOutcome ⟨0, "[]", ""⟩ (fun _ => .error "bad json") =
        .error "bad json" ∧
      postExtractStage ⟨2, "", "e"⟩ (fun _ => .ok []) = [] := by
  refine ⟨C3_extractorDegrade.1 ⟨2, "", "e"⟩ (fun _ => .ok []) (by decide),
    C3_extractorDegrade.2.1 ⟨0, "[]", ""⟩ (fun _ => .error "bad json") (by decide),
    C3_extractorDegrade.2.2 ⟨2, "", "e"⟩ (fun _ => .ok []) "Extractor failed: e"
      (C3_extractorDegrade.1 ⟨2, "", "e"⟩ (fun _ => .ok []) (by decide))⟩

/-- C9: analyzePromptContext is a total function into an Option (it
never throws); with no credential, or an empty-string credential, it
returns none for every network outcome; with a credential it narrows the
reply to the outermost brace span and returns none when that span fails
to parse, or the parsed value lacks a truthy summary, or its files field
is not an array; and it returns a value only when those validations
passed, the value being the parsed span itself. -/
theorem C9_analyzeGuards :
    (∀ (net : Option (List Char)) (p : List Char → Option JsonVal),
      analyzePromptContext none net p = none ∧
        analyzePromptContext (some "") net p = none) ∧
    (∀ (k : String) (content : List Char) (p : List Char → Option JsonVal),
      p (braceSlice content) = none →
        analyzePromptContext (some k) (some content) p = none) ∧
    (∀ (k : String) (content : List Char) (p : List Char → Option JsonVal)
        (parsed : JsonVal),
      p (braceSlice content) = some parsed →
        (¬ jsTruthy (jsField parsed "summary") = true ∨
          ¬ isJsonArray (jsField parsed "files") = true) →
        analyzePromptContext (some k) (some content) p = none) ∧
    (∀ (k : String) (net : Option (List Char)) (p : List Char → Option JsonVal)
        (parsed : JsonVal),
      analyzePromptContext (some k) net p = some parsed →
        k ≠ "" ∧ ∃ content, net = some content ∧
          p (braceSlice content) = some parsed ∧
          jsTruthy (jsField parsed "summary") = true ∧
          isJsonArray (jsField parsed "files") = true) := by
  refine ⟨?_, ?_, ?_, ?_⟩
  · intro net p
    exact ⟨rfl, rfl⟩
  · intro k content p h
    by_cases hk : k = ""
    · simp [analyzePromptContext, hk]
    · simp [analyzePromptContext, hk, h]
  · intro k content p parsed h hv
    by_cases hk : k = ""
    · simp [analyzePromptContext, hk]
    · simp only [analyzePromptContext, if_neg hk, h]
      rw [if_pos]
      rcases hv with hv | hv
      · left
        simpa using hv
      · right
        simpa using hv
  · intro k net p parsed h
    by_cases hk : k = ""
    · simp [analyzePromptContext, hk] at h
    · cases net with
      | none => simp [analyzePromptContext, hk] at h
      | some content =>
        cases hp : p (braceSlice content) with
        | none => simp [analyzePromptContext, hk, hp] at h
        | some parsed2 =>
          simp only [analyzePromptContext, if_neg hk, hp] at h
          split at h
          · exact absurd h (by simp)
          · rename_i hval
            rw [not_or] at hval
            obtain ⟨h1, h2⟩ := hval
            simp only [Option.some.injEq] at h
            subst h
            refine ⟨hk, content, rfl, hp, ?_, ?_⟩
            · simpa using h1
            · simpa using h2

/-- The four parts of C9_analyzeGuards at concrete inputs: a missing
and an empty credential; a parse failure; a reply parsing to a
summary-less object; and a successful run over the reply
[ok {"summary":"s","files":[]} ]. -/
theorem C9_analyzeGuards_witness :
    (analyzePromptContext none (some "x".data) (fun _ => some .nullV) = none ∧
      analyzePromptContext (some "") (some "x".data) (fun _ => some .nullV) = none) ∧
    analyzePromptContext (some "k") (some "x".data) (fun _ => none) = none ∧
    analyzePromptContext (some "k") (some "x".data)
        (fun _ => some (.objV [])) = none ∧
    (analyzePromptContext (some "k") (some "x".data)
          (fun _ => some (.objV [("summary", .strV "s"), ("files", .arrV [])])) =
        some (.objV [("summary", .strV "s"), ("files", .arrV [])]) →
      "k" ≠ "" ∧
        jsTruthy (jsField (.objV [("summary", .strV "s"), ("files", .arrV [])])
          "summary") = true) := by
  refine ⟨C9_analyzeGuards.1 (some "x".data) (fun _ => some .nullV),
    C9_analyzeGuards.2.1 "k" "x".data (fun _ => none) rfl,
    C9_analyzeGuards.2.2.1 "k" "x".data (fun _ => some (.objV [])) (.objV [])
      rfl (by left; decide), ?_⟩
  intro h
  have := C9_analyzeGuards.2.2.2 "k" (some "x".data)
    (fun _ => some (.objV [("summary", .strV "s"), ("files", .arrV [])]))
    (.objV [("summary", .strV "s"), ("files", .arrV [])]) h
  exact ⟨this.1, by
    obtain ⟨content, hc, hp, hs, hf⟩ := this.2
    exact hs⟩

/-- Starting from an empty target directory, a scan run leaves a new
file at /repo/.tmp-extractor/python_prompt_extractor.py — a path under
the target directory, which therefore is not read-only. -/
theorem C1_counterexample :
    (extractPromptsWrite (fun _ => none) "/repo" "print(1)").1
        "/repo/.tmp-extractor/python_prompt_extractor.py" = some "print(1)" ∧
      (fun _ => (none : Option String))
        "/repo/.tmp-extractor/python_prompt_extractor.py" = none ∧
      matchesAt "/repo/".data
        "/repo/.tmp-extractor/python_prompt_extractor.py".data 0 = true := by
  refine ⟨?_, rfl, by decide⟩
  show (if "/repo/.tmp-extractor/python_prompt_extractor.py" =
      joinPath (joinPath "/repo" ".tmp-extractor") "python_prompt_extractor.py"
    then some "print(1)" else none) = some "print(1)"
  rw [if_pos]
  rfl

/-- C1 (amended): the pipeline writes exactly one path under the target
directory — the embedded extractor script at
`target/.tmp-extractor/python_prompt_extractor.py`; every other path is
unchanged, and `.tmp-extractor` is in the ignore set of the walkers, so
the written file is not scanned. -/
theorem C1_scriptWriteFrame :
    (∀ (fs : FileSys) (projectRoot scriptSource p : String),
      p ≠ joinPath (joinPath projectRoot ".tmp-extractor")
          "python_prompt_extractor.py" →
        (extractPromptsWrite fs projectRoot scriptSource).1 p = fs p) ∧
    (∀ (fs : FileSys) (projectRoot scriptSource : String),
      (extractPromptsWrite fs projectRoot scriptSource).2 =
        joinPath (joinPath projectRoot ".tmp-extractor")
          "python_prompt_extractor.py") ∧
    ".tmp-extractor" ∈ ignoreNames := by
  refine ⟨?_, ?_, by decide⟩
  · intro fs projectRoot scriptSource p hp
    show (if p = joinPath (joinPath projectRoot ".tmp-extractor")
        "python_prompt_extractor.py" then some scriptSource else fs p) = fs p
    rw [if_neg hp]
  · intro fs projectRoot scriptSource
    rfl

/-- The frame part of C1_scriptWriteFrame at a path other than the
script path. -/
theorem C1_scriptWriteFrame_witness :
    (extractPromptsWrite (fun _ => none) "/repo" "print(1)").1
      "/repo/README.md" = none :=
  C1_scriptWriteFrame.1 (fun _ => none) "/repo" "print(1)" "/repo/README.md"
    (by decide)
